import Mathlib

/-!
Verification of the heads-up Texas Hold'em engine in `poker-core`.

The Rust source (`src/poker-core/src/lib.rs`) is shallowly embedded below:
pure functions become Lean functions, in-place mutation becomes explicit
state passing (a mutating method that can fail returns the post-call state
together with an optional error message, matching Rust's in-place updates
followed by `Err(...)` returns), `u64` values become `Nat` (the engine uses
`saturating_sub`/`saturating_mul` at the subtraction/multiplication sites
that could underflow/overflow in play, and `Nat` subtraction is itself
saturating; plain `u64` additions cannot reach `2^64` in any state the
claims exercise), and the iteration order of Rust `HashMap`s — which is
deliberately unspecified — is made an explicit parameter constrained to be
an enumeration of the map's key set.

The `pot_odds: f32` field is omitted from the state: it is floating point,
is never read by the engine itself, and is not mentioned by any claim.
-/

set_option maxRecDepth 100000

namespace Poker

/-- Chip/table constants from the top of `lib.rs`. -/
def SMALL_BLIND_CHIPS : Nat := 10

/-- Big blind constant. -/
def BIG_BLIND_CHIPS : Nat := 20

/-- Starting stack per player. -/
def INITIAL_CHIPS : Nat := 10000

/-- Minimum stack required to be dealt into a new hand. -/
def MIN_CHIPS_TO_CONTINUE : Nat := 10

/-- Default lower bet-sizing bound. -/
def MIN_BET_DEFAULT : Nat := 20

/-- Default upper bet-sizing bound. -/
def MAX_BET_DEFAULT : Nat := 500

/-- Multiplier for the absolute bet ceiling. -/
def MAX_BET_MULTIPLIER : Nat := 100

/-- Default UI bet amount. -/
def CALL_AMOUNT_DEFAULT : Nat := 50

/-- Number of seats. -/
def NUM_PLAYERS : Nat := 2

/-- The four suits. -/
inductive Suit where
  | Spades
  | Hearts
  | Diamonds
  | Clubs
deriving DecidableEq, Repr

/-- `Suit::to_char`. -/
def Suit.to_char : Suit → Char
  | .Spades => '♠'
  | .Hearts => '♥'
  | .Diamonds => '♦'
  | .Clubs => '♣'

/-- `Suit::from_char`. -/
def Suit.from_char (c : Char) : Option Suit :=
  if c = '♠' then some .Spades
  else if c = '♥' then some .Hearts
  else if c = '♦' then some .Diamonds
  else if c = '♣' then some .Clubs
  else none

/-- A card: rank 2..=14 (Ace high) plus suit.  Rust stores the rank in a
`u8`; ranks appearing in play are 2..14, far below overflow. -/
structure Card where
  rank : Nat
  suit : Suit
deriving DecidableEq, Repr

/-- The rank token of `impl Display for Card` (as a character list). -/
def rankChars (r : Nat) : List Char :=
  if r = 14 then ['A']
  else if r = 13 then ['K']
  else if r = 12 then ['Q']
  else if r = 11 then ['J']
  else if r = 10 then ['1', '0']
  else Nat.toDigits 10 r

/-- `impl Display for Card`: rank token followed by the suit glyph. -/
def Card.render (c : Card) : List Char :=
  rankChars c.rank ++ [c.suit.to_char]

/-- Number of bytes of a character's UTF-8 encoding (Rust `str::len` counts
bytes, so `"A♠".len() = 4`). -/
def utf8Len (c : Char) : Nat :=
  if c.toNat < 0x80 then 1
  else if c.toNat < 0x800 then 2
  else if c.toNat < 0x10000 then 3
  else 4

/-- Rust byte length of a string represented as its character list. -/
def strByteLen (s : List Char) : Nat :=
  (s.map utf8Len).sum

/-- Rust `str::parse::<u8>`: an optional leading `'+'`, then one or more
ASCII digits, value at most 255.  (A leading `'-'`, empty input, non-digit
characters, and overflow all fail.) -/
def parseU8 (s : List Char) : Option Nat :=
  let digits := match s with
    | '+' :: rest => rest
    | _ => s
  if digits = [] then none
  else if digits.all (fun c => decide ('0' ≤ c ∧ c ≤ '9')) then
    let v := digits.foldl (fun acc c => acc * 10 + (c.toNat - 48)) 0
    if v ≤ 255 then some v else none
  else none

/-- The rank-token match inside `Card::from_string`: the four face/Ace
letters, any other token through `str::parse::<u8>`. -/
def rankOfToken (l : List Char) : Option Nat :=
  if l = ['A'] then some 14
  else if l = ['K'] then some 13
  else if l = ['Q'] then some 12
  else if l = ['J'] then some 11
  else parseU8 l

/-- `Card::from_string`: last character must be a suit glyph, the prefix is
`A`/`K`/`Q`/`J` or a `u8` numeral, and the rank must lie in 2..=14. -/
def fromString (s : List Char) : Option Card :=
  if strByteLen s < 2 then none
  else
    match s.getLast? with
    | none => none
    | some suit_char =>
      match Suit.from_char suit_char with
      | none => none
      | some suit =>
        match rankOfToken s.dropLast with
        | none => none
        | some rank =>
          if 2 ≤ rank ∧ rank ≤ 14 then some ⟨rank, suit⟩ else none

/-- `Deck::new()`: for each suit in order Spades, Hearts, Diamonds, Clubs,
ranks 2..=14. -/
def standardDeck : List Card :=
  ([Suit.Spades, Suit.Hearts, Suit.Diamonds, Suit.Clubs].map
    (fun su => (List.range 13).map (fun k => Card.mk (k + 2) su))).flatten

/-- Hand categories, in the ordinal order of the Rust `enum HandRank`. -/
inductive HandRank where
  | HighCard
  | Pair
  | TwoPair
  | ThreeOfAKind
  | Straight
  | Flush
  | FullHouse
  | FourOfAKind
  | StraightFlush
  | RoyalFlush
deriving DecidableEq, Repr

/-- The discriminant values of `HandRank` (0..=9). -/
def HandRank.toNat : HandRank → Nat
  | .HighCard => 0
  | .Pair => 1
  | .TwoPair => 2
  | .ThreeOfAKind => 3
  | .Straight => 4
  | .Flush => 5
  | .FullHouse => 6
  | .FourOfAKind => 7
  | .StraightFlush => 8
  | .RoyalFlush => 9

/-- `EvaluatedHand { rank, primary_values, kickers }`. -/
structure EvaluatedHand where
  rank : HandRank
  primary_values : List Nat
  kickers : List Nat
deriving DecidableEq, Repr

/-- Lexicographic comparison of `Vec<u8>` as derived by Rust `Ord`:
element-wise, a strict prefix is smaller. -/
def listCmp : List Nat → List Nat → Ordering
  | [], [] => .eq
  | [], _ :: _ => .lt
  | _ :: _, [] => .gt
  | a :: as_, b :: bs =>
    match compare a b with
    | .eq => listCmp as_ bs
    | o => o

/-- Rust `derive(Ord)` on `EvaluatedHand`: fields compared in declaration
order (rank, then primary_values, then kickers). -/
def ehCmp (x y : EvaluatedHand) : Ordering :=
  (compare x.rank.toNat y.rank.toNat).then
    ((listCmp x.primary_values y.primary_values).then (listCmp x.kickers y.kickers))

/-- `sort_unstable_by(|a, b| b.cmp(a))`: sort descending. -/
def sortDesc (l : List Nat) : List Nat :=
  List.insertionSort (fun a b => b ≤ a) l

/-- `sort_unstable()`: sort ascending. -/
def sortAsc (l : List Nat) : List Nat :=
  List.insertionSort (fun a b => a ≤ b) l

/-- `Vec::dedup`: remove consecutive duplicates. -/
def dedupAdj : List Nat → List Nat
  | [] => []
  | [a] => [a]
  | a :: b :: rest =>
    if a = b then dedupAdj (b :: rest) else a :: dedupAdj (b :: rest)

/-- The window scan of `find_straight`: return the first (leftmost) window
of five consecutive ascending values in the sorted deduplicated list,
exactly as the Rust loop over `sorted_ranks[i..i + 5]` does. -/
def firstRun : List Nat → Option (List Nat)
  | a :: b :: c :: d :: e :: rest =>
    if b = a + 1 ∧ c = b + 1 ∧ d = c + 1 ∧ e = d + 1 then some [a, b, c, d, e]
    else firstRun (b :: c :: d :: e :: rest)
  | _ => none

/-- `PokerHandEvaluator::find_straight`: sort ascending, dedup, scan for a
run of five; if none and an Ace is present, map 14 to 1 and rescan for
the wheel, reported as `[5,4,3,2,1]`. -/
def findStraight (ranks : List Nat) : Option (List Nat) :=
  if ranks.length < 5 then none
  else
    let sorted := dedupAdj (sortAsc ranks)
    match firstRun sorted with
    | some w => some w.reverse
    | none =>
      if 14 ∈ sorted then
        let ace_low := dedupAdj (sortAsc (sorted.map (fun r => if r = 14 then 1 else r)))
        if (firstRun ace_low).isSome then some [5, 4, 3, 2, 1] else none
      else none

/-- Straight / trips / two-pair / pair / high-card tail of `evaluate`
(everything after the flush check).  `rord` is the iteration order of the
`rank_counts` HashMap. -/
def evalLowGroups (rord : List Nat) (ranks ranks_dedup : List Nat) : EvaluatedHand :=
  let rc : Nat → Nat := fun r => ranks.count r
  match findStraight ranks_dedup with
  | some straight_ranks => ⟨.Straight, straight_ranks, []⟩
  | none =>
    match rord.find? (fun r => rc r == 3) with
    | some three_rank =>
      ⟨.ThreeOfAKind, [three_rank], (ranks.filter (fun r => r ≠ three_rank)).take 2⟩
    | none =>
      let two_pair_ranks := rord.filter (fun r => rc r == 2)
      if 2 ≤ two_pair_ranks.length then
        let pairs := sortDesc two_pair_ranks
        let first_pair := pairs.getD 0 0
        let second_pair := pairs.getD 1 0
        ⟨.TwoPair, [first_pair, second_pair],
          (ranks.filter (fun r => r ≠ first_pair ∧ r ≠ second_pair)).take 1⟩
      else
        match two_pair_ranks.head? with
        | some pair_rank =>
          ⟨.Pair, [pair_rank], (ranks.filter (fun r => r ≠ pair_rank)).take 3⟩
        | none => ⟨.HighCard, [], ranks.take 5⟩

/-- Flush part of `evaluate` and everything below it.  `sord` is the
iteration order of the `suit_counts` HashMap. -/
def evalFlushPart (rord : List Nat) (sord : List Suit) (all_cards : List Card)
    (ranks ranks_dedup : List Nat) : EvaluatedHand :=
  match sord.find? (fun su => 5 ≤ (all_cards.filter (fun c => c.suit == su)).length) with
  | some suit =>
    let flush_cards := sortDesc ((all_cards.filter (fun c => c.suit == suit)).map Card.rank)
    match findStraight flush_cards with
    | some straight_ranks =>
      if straight_ranks.getD 0 0 = 14 ∧ straight_ranks.getD 1 0 = 13 then
        ⟨.RoyalFlush, [14], []⟩
      else ⟨.StraightFlush, straight_ranks, []⟩
    | none => ⟨.Flush, flush_cards.take 5, []⟩
  | none => evalLowGroups rord ranks ranks_dedup

/-- `PokerHandEvaluator::evaluate`, with the two HashMap iteration orders
as explicit parameters (Rust leaves them unspecified). -/
def evaluateWith (rord : List Nat) (sord : List Suit) (hole_cards community_cards : List Card) :
    EvaluatedHand :=
  let all_cards := hole_cards ++ community_cards
  if all_cards.length < 5 then ⟨.HighCard, [], []⟩
  else
    let ranks := sortDesc (all_cards.map Card.rank)
    let ranks_dedup := dedupAdj ranks
    let rc : Nat → Nat := fun r => ranks.count r
    match rord.find? (fun r => rc r == 4) with
    | some four_rank =>
      ⟨.FourOfAKind, [four_rank], (ranks.filter (fun r => r ≠ four_rank)).take 1⟩
    | none =>
      let full_house_ranks := rord.filter (fun r => 2 ≤ rc r)
      if 2 ≤ full_house_ranks.length then
        match full_house_ranks.find? (fun r => 3 ≤ rc r) with
        | some three =>
          match full_house_ranks.find? (fun r => r ≠ three ∧ 2 ≤ rc r) with
          | some pair => ⟨.FullHouse, [three, pair], []⟩
          | none => evalFlushPart rord sord all_cards ranks ranks_dedup
        | none => evalFlushPart rord sord all_cards ranks ranks_dedup
      else evalFlushPart rord sord all_cards ranks ranks_dedup

/-- The engine stages. -/
inductive GameStage where
  | Preflop
  | Flop
  | Turn
  | River
  | Showdown
  | HandComplete
  | WaitingToStart
deriving DecidableEq, Repr

/-- The player actions. -/
inductive PlayerAction where
  | Fold
  | Check
  | Call
  | Bet
  | Raise
  | AllIn
deriving DecidableEq, Repr

/-- A seat: identity plus per-hand betting state. -/
structure Player where
  name : String
  chips : Nat
  hole_cards : List Card
  current_bet : Nat
  folded : Bool
  all_in : Bool
  acted : Bool
deriving DecidableEq, Repr

/-- `Player::new`. -/
def Player.new (name : String) (chips : Nat) : Player :=
  ⟨name, chips, [], 0, false, false, false⟩

/-- `Player::bet`: `none` models `Err("Insufficient chips")` (in which case
the Rust method mutates nothing); on success chips are debited,
`current_bet` credited, `all_in` set when the stack reaches zero, and
`acted` set. -/
def Player.bet (p : Player) (amount : Nat) : Option Player :=
  if p.chips < amount then none
  else some { p with
    chips := p.chips - amount
    current_bet := p.current_bet + amount
    all_in := if p.chips - amount = 0 then true else p.all_in
    acted := true }

/-- `Player::collect_pot`. -/
def Player.collect_pot (p : Player) (amount : Nat) : Player :=
  { p with chips := p.chips + amount }

/-- `Player::reset_for_new_hand`. -/
def Player.reset_for_new_hand (p : Player) : Player :=
  { p with hole_cards := [], current_bet := 0, folded := false, all_in := false, acted := false }

/-- `PokerGameState` (minus the engine-unused `pot_odds: f32` field; the
deck is the remaining card sequence, dealt from the front, burned from the
back exactly as `Vec::drain(0..n)` / `Vec::pop` do). -/
structure GameState where
  deck : List Card
  players : List Player
  community_cards : List Card
  pot : Nat
  stage : GameStage
  dealer_position : Nat
  current_player : Nat
  to_call : Nat
  pending_action : Bool
  bet_amount : Nat
  min_bet : Nat
  max_bet : Nat
deriving DecidableEq, Repr

/-- Out-of-range indexing placeholder (never reached on the states the
theorems quantify over; Rust would panic there). -/
def defaultPlayer : Player := Player.new "" 0

/-- Read `self.players[i]`. -/
def GameState.player (s : GameState) (i : Nat) : Player :=
  s.players.getD i defaultPlayer

/-- Write `self.players[i]`. -/
def GameState.setPlayer (s : GameState) (i : Nat) (p : Player) : GameState :=
  { s with players := s.players.set i p }

/-- One iteration-order choice (rank order, suit order) per player index,
standing in for the per-call Rust HashMap iteration orders inside
`evaluate`. -/
abbrev EvalOrds : Type := Nat → List Nat × List Suit

/-- `end_hand`. -/
def end_hand (s : GameState) : GameState :=
  { s with
    stage := .HandComplete
    dealer_position := (s.dealer_position + 1) % s.players.length }

/-- `get_active_players`: indices of non-folded seats, ascending. -/
def activePlayers (s : GameState) : List Nat :=
  (List.range s.players.length).filter (fun i => ¬(s.player i).folded)

/-- `get_betting_players`: indices of non-folded, non-all-in seats. -/
def bettingPlayers (s : GameState) : List Nat :=
  (List.range s.players.length).filter (fun i => ¬(s.player i).folded ∧ ¬(s.player i).all_in)

/-- `deal_community_cards`: burn one card (from the back), then move
`count` cards (from the front) to the board if enough remain. -/
def dealCommunity (count : Nat) (s : GameState) : GameState :=
  let dk := s.deck.dropLast
  if count ≤ dk.length then
    { s with deck := dk.drop count, community_cards := s.community_cards ++ dk.take count }
  else { s with deck := dk }

/-- Body of the `run_out_board` while-loop.  The Rust loop runs while the
board has fewer than 5 cards; each pass advances the stage, and the stage
match breaks out at River and beyond, so at most three passes ever run —
the fuel of 3 below is exact, not an approximation. -/
def runOutLoop : Nat → GameState → GameState
  | 0, s => s
  | n + 1, s =>
    if s.community_cards.length < 5 then
      match s.stage with
      | .Preflop => runOutLoop n { dealCommunity 3 s with stage := .Flop }
      | .Flop => runOutLoop n { dealCommunity 1 s with stage := .Turn }
      | .Turn => runOutLoop n { dealCommunity 1 s with stage := .River }
      | _ => s
    else s

/-- `run_out_board`. -/
def run_out_board (s : GameState) : GameState :=
  { runOutLoop 3 s with stage := .Showdown }

/-- The winner-selection loop of `determine_winner`: running best hand and
the list of indices tied at it. -/
def winnersLoop (o : EvalOrds) (s : GameState) :
    List Nat → Option EvaluatedHand → List Nat → Option EvaluatedHand × List Nat
  | [], best, winners => (best, winners)
  | i :: rest, best, winners =>
    let hand := evaluateWith (o i).1 (o i).2 (s.player i).hole_cards s.community_cards
    match best with
    | none => winnersLoop o s rest (some hand) (winners ++ [i])
    | some b =>
      match ehCmp hand b with
      | .gt => winnersLoop o s rest (some hand) [i]
      | .eq => winnersLoop o s rest best (winners ++ [i])
      | .lt => winnersLoop o s rest best winners

/-- The payout loop of `determine_winner`: credit `split` to each winner. -/
def payWinners (winners : List Nat) (split : Nat) (ps : List Player) : List Player :=
  winners.foldl (fun acc i => acc.set i ((acc.getD i defaultPlayer).collect_pot split)) ps

/-- `determine_winner`. -/
def determine_winner (o : EvalOrds) (s : GameState) : GameState :=
  let active := activePlayers s
  if active.length = 1 then
    let winner_idx := active.headD 0
    end_hand (s.setPlayer winner_idx ((s.player winner_idx).collect_pot s.pot))
  else
    let (_, winners) := winnersLoop o s active none []
    if winners.isEmpty then end_hand s
    else
      let split_amount := s.pot / winners.length
      let remainder := s.pot % winners.length
      let s1 := { s with players := payWinners winners split_amount s.players }
      let s2 :=
        if 0 < remainder then
          s1.setPlayer (winners.headD 0) ((s1.player (winners.headD 0)).collect_pot remainder)
        else s1
      end_hand s2

/-- `update_action_bounds` (`saturating_mul` written as `*`: the values in
play are far below `u64::MAX`). -/
def update_action_bounds (s : GameState) : GameState :=
  if s.players.isEmpty ∨ s.players.length ≤ s.current_player then s
  else
    let current_call := s.to_call
    let player := s.player s.current_player
    let min_raise := current_call * 2
    let s := { s with
      min_bet := if current_call = 0 then BIG_BLIND_CHIPS else min_raise
      max_bet := min player.chips (MAX_BET_DEFAULT * MAX_BET_MULTIPLIER) }
    let s := if s.bet_amount < s.min_bet then { s with bet_amount := s.min_bet } else s
    if s.max_bet < s.bet_amount then { s with bet_amount := s.max_bet } else s

/-- `advance_street`. -/
def advance_street (o : EvalOrds) (s : GameState) : GameState :=
  let s := { s with
    players := s.players.map (fun p : Player => { p with acted := false })
    to_call := 0 }
  let s :=
    match s.stage with
    | .Preflop => { dealCommunity 3 s with stage := .Flop }
    | .Flop => { dealCommunity 1 s with stage := .Turn }
    | .Turn => { dealCommunity 1 s with stage := .River }
    | .River => determine_winner o { s with stage := .Showdown }
    | _ => end_hand s
  let s := { s with
    current_player := (s.dealer_position + 1) % s.players.length
    pending_action := true }
  update_action_bounds s

/-- `check_street_complete`. -/
def check_street_complete (o : EvalOrds) (s : GameState) : GameState :=
  let active := activePlayers s
  if active.length = 1 then
    let winner_idx := active.headD 0
    end_hand (s.setPlayer winner_idx ((s.player winner_idx).collect_pot s.pot))
  else
    let betting := bettingPlayers s
    if betting.isEmpty then determine_winner o (run_out_board s)
    else
      let all_acted := betting.all (fun i => (s.player i).acted)
      let bets_equal := betting.all (fun i => (s.player i).current_bet == s.to_call)
      if all_acted && bets_equal then advance_street o s else s

/-- The seat-advance while-loop: step to the next seat, skipping folded or
all-in seats, for at most `players.len()` skip attempts. -/
def advanceLoop : Nat → GameState → GameState
  | 0, s => s
  | n + 1, s =>
    let cur := (s.current_player + 1) % s.players.length
    let s := { s with current_player := cur }
    if (s.player cur).folded ∨ (s.player cur).all_in then advanceLoop n s else s

/-- `advance_to_next_player`. -/
def advance_to_next_player (o : EvalOrds) (s : GameState) : GameState :=
  check_street_complete o (advanceLoop s.players.length s)

/-- `perform_action`.  The returned pair is (post-call state, optional
error message); `none` is `Ok` (the success message string is dropped). -/
def perform_action (o : EvalOrds) (action : PlayerAction) (s : GameState) :
    GameState × Option String :=
  if s.pending_action = false then (s, some "No pending action")
  else
    let player_idx := s.current_player
    let player := s.player player_idx
    if player.folded ∨ player.all_in then (s, some "Player cannot act")
    else
      let current_bet := player.current_bet
      let call_amount := s.to_call - current_bet
      match action with
      | .Fold =>
        (advance_to_next_player o (s.setPlayer player_idx { player with folded := true }), none)
      | .Check =>
        if 0 < call_amount then (s, some "Cannot check when a bet is pending")
        else
          (advance_to_next_player o (s.setPlayer player_idx { player with acted := true }), none)
      | .Call =>
        let actual_call := min call_amount player.chips
        match player.bet actual_call with
        | none => (s, some "Insufficient chips")
        | some p' =>
          let s := { s.setPlayer player_idx { p' with acted := true } with
            pot := s.pot + actual_call }
          (advance_to_next_player o s, none)
      | .Bet =>
        if 0 < call_amount then (s, some "Use Raise action instead of Bet when a bet is pending")
        else
          let bet_amount := min s.bet_amount player.chips
          match player.bet bet_amount with
          | none => (s, some "Insufficient chips")
          | some p' =>
            let s := { s.setPlayer player_idx p' with
              to_call := bet_amount
              pot := s.pot + bet_amount }
            (advance_to_next_player o s, none)
      | .Raise =>
        let raise_amount := min s.bet_amount player.chips
        let total_bet := current_bet + raise_amount
        if total_bet ≤ s.to_call then (s, some "Raise must be greater than current bet")
        else
          match player.bet raise_amount with
          | none => (s, some "Insufficient chips")
          | some p' =>
            let s := { s.setPlayer player_idx p' with
              to_call := total_bet
              pot := s.pot + raise_amount }
            (advance_to_next_player o s, none)
      | .AllIn =>
        let all_in_amount := player.chips
        match player.bet all_in_amount with
        | none => (s, some "Insufficient chips")
        | some p' =>
          let s := { s.setPlayer player_idx p' with pot := s.pot + all_in_amount }
          let s :=
            if s.to_call < current_bet + all_in_amount then
              { s with to_call := current_bet + all_in_amount }
            else s
          (advance_to_next_player o s, none)

/-- The hole-card dealing loop of `start_new_hand`: each player in order
takes two cards from the front of the deck; `false` flags the (with a full
deck unreachable) exhaustion error, with earlier seats already dealt. -/
def dealHoles : List Player → List Card → List Player × List Card × Bool
  | [], dk => ([], dk, true)
  | p :: ps, dk =>
    if dk.length < 2 then (p :: ps, dk, false)
    else
      let p' := { p with hole_cards := p.hole_cards ++ dk.take 2 }
      let (ps', dk', ok) := dealHoles ps (dk.drop 2)
      (p' :: ps', dk', ok)

/-- `post_blinds`: small blind at `dealer+1`, big blind at `dealer+2`, both
through `Player::bet`; failures propagate after any earlier successful
debit (in-place mutation). -/
def post_blinds (s : GameState) : GameState × Option String :=
  let sb_position := (s.dealer_position + 1) % s.players.length
  let bb_position := (s.dealer_position + 2) % s.players.length
  match (s.player sb_position).bet SMALL_BLIND_CHIPS with
  | none => (s, some "Insufficient chips")
  | some psb =>
    let s := s.setPlayer sb_position psb
    match (s.player bb_position).bet BIG_BLIND_CHIPS with
    | none => (s, some "Insufficient chips")
    | some pbb =>
      let s := s.setPlayer bb_position pbb
      ({ s with pot := s.pot + (SMALL_BLIND_CHIPS + BIG_BLIND_CHIPS) }, none)

/-- `start_new_hand`.  The parameter `d` is the freshly shuffled deck (the
Rust code builds `Deck::new()` and shuffles it in place; any permutation of
the 52 cards can result). -/
def start_new_hand (d : List Card) (s : GameState) : GameState × Option String :=
  if (s.players.filter (fun p => MIN_CHIPS_TO_CONTINUE ≤ p.chips)).length < 2 then
    (s, some "Not enough players with sufficient chips")
  else
    let s := { s with
      players := s.players.map Player.reset_for_new_hand
      deck := d
      community_cards := [] }
    let s := { s with deck := s.deck.dropLast }
    match dealHoles s.players s.deck with
    | (ps, dk, false) => ({ s with players := ps, deck := dk }, some "Failed to deal hole cards")
    | (ps, dk, true) =>
      let s := { s with players := ps, deck := dk, pot := 0 }
      match post_blinds s with
      | (s, some e) => (s, some e)
      | (s, none) =>
        let s := { s with
          stage := .Preflop
          current_player := (s.dealer_position + 3) % s.players.length
          to_call := BIG_BLIND_CHIPS
          pending_action := true }
        (update_action_bounds s, none)

/-- `set_bet_amount` (the `f32` argument is modelled after Rust's
`amount as u64` cast): store the value only if it already lies within
`[min_bet, max_bet]`. -/
def set_bet_amount (amount : Nat) (s : GameState) : GameState :=
  if s.min_bet ≤ amount ∧ amount ≤ s.max_bet then { s with bet_amount := amount } else s

/-- `PokerGameState::new()`; `d` is the result of the constructor's
shuffle. -/
def initState (d : List Card) : GameState :=
  { deck := d
    players := [Player.new "Alice" INITIAL_CHIPS, Player.new "Bob" INITIAL_CHIPS]
    community_cards := []
    pot := 0
    stage := .WaitingToStart
    dealer_position := 0
    current_player := 0
    to_call := 0
    pending_action := false
    bet_amount := CALL_AMOUNT_DEFAULT
    min_bet := MIN_BET_DEFAULT
    max_bet := MAX_BET_DEFAULT }

/-- States reachable from a freshly constructed engine by any sequence of
`start_new_hand` / `perform_action` calls (successful or not — Rust mutates
in place, so the post-call state is reachable either way), with every
shuffle an arbitrary permutation of the 52-card deck. -/
inductive Reachable : GameState → Prop where
  | init : ∀ d : List Card, d.Perm standardDeck → Reachable (initState d)
  | startStep : ∀ (s : GameState) (d : List Card),
      Reachable s → d.Perm standardDeck → Reachable (start_new_hand d s).1
  | actStep : ∀ (s : GameState) (o : EvalOrds) (a : PlayerAction),
      Reachable s → Reachable (perform_action o a s).1

/-- Reachability between two states by engine calls (any decks, any
iteration orders). -/
inductive ReachFrom : GameState → GameState → Prop where
  | refl : ∀ s, ReachFrom s s
  | startStep : ∀ (s t : GameState) (d : List Card),
      ReachFrom s t → ReachFrom s (start_new_hand d t).1
  | actStep : ∀ (s t : GameState) (o : EvalOrds) (a : PlayerAction),
      ReachFrom s t → ReachFrom s (perform_action o a t).1

/-- Total chips held by the seats. -/
def sumChips (s : GameState) : Nat :=
  (s.players.map Player.chips).sum

/-- Two lists enumerate the same set of elements. -/
def sameMembers {α : Type} [DecidableEq α] (xs ys : List α) : Prop :=
  (∀ x ∈ xs, x ∈ ys) ∧ (∀ y ∈ ys, y ∈ xs)

/-- `ord` is a possible iteration order of the `rank_counts` HashMap built
from `cards`: an enumeration, without repetition, of exactly the ranks
present. -/
def validRankOrd (ord : List Nat) (cards : List Card) : Prop :=
  ord.Nodup ∧ sameMembers ord (cards.map Card.rank)

/-- `ord` is a possible iteration order of the `suit_counts` HashMap built
from `cards`. -/
def validSuitOrd (ord : List Suit) (cards : List Card) : Prop :=
  ord.Nodup ∧ sameMembers ord (cards.map Card.suit)

/-- Ranks (in input order) of the cards of suit `su`. -/
def suitRanks (cards : List Card) (su : Suit) : List Nat :=
  (cards.filter (fun c => c.suit == su)).map Card.rank

/-- Claim-side membership with Ace optionally playing low: `x` is
available among ranks `R` (the value 1 is available when an Ace is). -/
def memLow (R : List Nat) (x : Nat) : Prop :=
  x ∈ R ∨ (x = 1 ∧ 14 ∈ R)

/-- Claim-side predicate: the five consecutive values `lo..lo+4` are all
available among `R` (Ace high or low). -/
def hasRun (R : List Nat) (lo : Nat) : Prop :=
  ∀ k < 5, memLow R (lo + k)

/-- Claim-side straight-flush predicate: some admissible run exists. -/
def hasAnyRun (R : List Nat) : Prop :=
  ∃ lo, 1 ≤ lo ∧ lo ≤ 10 ∧ hasRun R lo

/-- Claim-side predicate on a descending rank list: each entry is exactly
one more than its successor (the claim's "those 5 ranks are
consecutive"). -/
def descConsecutive : List Nat → Prop
  | a :: b :: rest => a = b + 1 ∧ descConsecutive (b :: rest)
  | _ => True

instance (R : List Nat) (x : Nat) : Decidable (memLow R x) :=
  inferInstanceAs (Decidable (x ∈ R ∨ (x = 1 ∧ 14 ∈ R)))

instance (R : List Nat) (lo : Nat) : Decidable (hasRun R lo) :=
  inferInstanceAs (Decidable (∀ k < 5, memLow R (lo + k)))

instance {α : Type} [DecidableEq α] (xs ys : List α) : Decidable (sameMembers xs ys) :=
  inferInstanceAs (Decidable ((∀ x ∈ xs, x ∈ ys) ∧ (∀ y ∈ ys, y ∈ xs)))

instance instDecidableDescConsecutive : (l : List Nat) → Decidable (descConsecutive l)
  | [] => .isTrue trivial
  | [_] => .isTrue trivial
  | a :: b :: rest =>
    have : Decidable (descConsecutive (b :: rest)) := instDecidableDescConsecutive (b :: rest)
    inferInstanceAs (Decidable (a = b + 1 ∧ descConsecutive (b :: rest)))

instance (ord : List Nat) (cards : List Card) : Decidable (validRankOrd ord cards) :=
  inferInstanceAs (Decidable (ord.Nodup ∧ sameMembers ord (cards.map Card.rank)))

instance (ord : List Suit) (cards : List Card) : Decidable (validSuitOrd ord cards) :=
  inferInstanceAs (Decidable (ord.Nodup ∧ sameMembers ord (cards.map Card.suit)))

/-- Iteration orders that are never consulted (traces that end by a fold
never evaluate a hand). -/
def noOrds : EvalOrds := fun _ => ([], [])

/-- State after `start_new_hand` on a fresh engine whose shuffles both
produced the identity permutation (one possible Fisher-Yates outcome). -/
def sStart : GameState := (start_new_hand standardDeck (initState standardDeck)).1

/-- State after the small blind folds pre-flop: the hand is over, the pot
was awarded. -/
def sFold : GameState := (perform_action noOrds .Fold sStart).1

/-- State after the small blind calls pre-flop: the street closes and the
flop is dealt. -/
def sFlop : GameState := (perform_action noOrds .Call sStart).1

/-- A state whose big blind (seat 0, with the dealer at 0 and two seats)
holds 15 chips: above `MIN_CHIPS_TO_CONTINUE`, below the big blind. -/
def sShortBB : GameState :=
  { initState standardDeck with
    players := [Player.new "Alice" 15, Player.new "Bob" 100]
    stage := .HandComplete }

/-- A state with no player able to continue. -/
def sBroke : GameState :=
  { initState standardDeck with
    players := [Player.new "Alice" 5, Player.new "Bob" 5]
    stage := .HandComplete }

/-- Hole cards of the two-triples full-house example. -/
def c3hole : List Card := [⟨10, .Spades⟩, ⟨10, .Hearts⟩]

/-- Community cards of the two-triples full-house example: together with
`c3hole` the board holds triple tens and triple fives. -/
def c3comm : List Card :=
  [⟨10, .Diamonds⟩, ⟨5, .Spades⟩, ⟨5, .Hearts⟩, ⟨5, .Diamonds⟩, ⟨13, .Spades⟩]

/-- Hole cards of the low-straight-flush example. -/
def c5hole : List Card := [⟨2, .Hearts⟩, ⟨3, .Hearts⟩]

/-- Community cards of the low-straight-flush example: hearts 2,3,4,5,6,8
plus an off-suit king — the five highest hearts (8,6,5,4,3) are not
consecutive, yet 2..6 is a straight flush. -/
def c5comm : List Card :=
  [⟨4, .Hearts⟩, ⟨5, .Hearts⟩, ⟨6, .Hearts⟩, ⟨8, .Hearts⟩, ⟨13, .Spades⟩]

/-- Hole cards of the plain-flush witness example. -/
def c5wHole : List Card := [⟨2, .Hearts⟩, ⟨3, .Hearts⟩]

/-- Community cards of the plain-flush witness example: hearts 2,3,4,7,9
(no five consecutive) plus two off-suit cards. -/
def c5wComm : List Card :=
  [⟨4, .Hearts⟩, ⟨7, .Hearts⟩, ⟨9, .Hearts⟩, ⟨13, .Spades⟩, ⟨12, .Diamonds⟩]

/-- Seats for the showdown-split witness: both hold an Ace and a deuce. -/
def wPlayers : List Player :=
  [{ Player.new "Alice" 100 with hole_cards := [⟨14, .Spades⟩, ⟨2, .Clubs⟩] },
   { Player.new "Bob" 100 with hole_cards := [⟨14, .Diamonds⟩, ⟨2, .Hearts⟩] }]

/-- Showdown-split witness state: an odd pot of 101 and two seats that tie
with Ace-high. -/
def wState : GameState :=
  { initState standardDeck with
    players := wPlayers
    pot := 101
    community_cards := [⟨5, .Spades⟩, ⟨7, .Hearts⟩, ⟨9, .Diamonds⟩, ⟨11, .Clubs⟩, ⟨13, .Hearts⟩] }

/-- Concrete iteration orders for the showdown-split witness. -/
def wOrds : EvalOrds :=
  fun _ => ([14, 2, 5, 7, 9, 11, 13], [Suit.Spades, Suit.Clubs, Suit.Hearts, Suit.Diamonds])

/-- The hand `determine_winner` evaluates for seat `i` (under iteration
orders `o`). -/
def handOf (o : EvalOrds) (s : GameState) (i : Nat) : EvaluatedHand :=
  evaluateWith (o i).1 (o i).2 (s.player i).hole_cards s.community_cards

/-- C1: chip conservation fails in `HandComplete`.  Along the reachable
trace fresh-engine → `start_new_hand` → `Fold`, the awarded pot is never
zeroed, so `sum(chips) + pot = 20030` while the claim demands
`NUM_PLAYERS × INITIAL_CHIPS = 20000` in every reachable state including
`HandComplete`. -/
theorem chips_plus_pot_20030_after_fold :
    Reachable sFold ∧ sFold.stage = GameStage.HandComplete ∧
    NUM_PLAYERS * INITIAL_CHIPS = 20000 ∧ sumChips sFold + sFold.pot = 20030 := by
  refine ⟨?_, by decide, by decide, by decide⟩
  exact Reachable.actStep _ noOrds .Fold
    (Reachable.startStep _ _ (Reachable.init _ (List.Perm.refl _)) (List.Perm.refl _))

/-- C6: `current_bet` is not per-street.  Along the reachable trace
fresh-engine → `start_new_hand` → `Call`, the street closes and the flop is
dealt (`to_call` reset to 0, `acted` cleared), yet both players'
`current_bet` is still 20, where the claim demands 0. -/
theorem current_bet_not_reset_on_flop :
    Reachable sFlop ∧ sFlop.stage = GameStage.Flop ∧ sFlop.to_call = 0 ∧
    sFlop.players.map Player.acted = [false, false] ∧
    sFlop.players.map Player.current_bet = [20, 20] := by
  refine ⟨?_, by decide, by decide, by decide, by decide⟩
  exact Reachable.actStep _ noOrds .Call
    (Reachable.startStep _ _ (Reachable.init _ (List.Perm.refl _)) (List.Perm.refl _))

/-- C3: full-house selection depends on the HashMap iteration order.  On a
hand with triple tens and triple fives, the iteration order `[5, 10, 13]`
(a legitimate enumeration of the rank-count keys) makes `evaluate` pick the
five as the triple and return `primary_values = [5, 10]`, while the order
`[10, 5, 13]` returns `[10, 5]` — so the result is neither deterministic
nor always the highest-triple choice `[10, 5]` the claim (and poker rules)
require. -/
theorem full_house_selection_order_dependent :
    validRankOrd [5, 10, 13] (c3hole ++ c3comm) ∧
    validRankOrd [10, 5, 13] (c3hole ++ c3comm) ∧
    validSuitOrd [Suit.Spades, Suit.Hearts, Suit.Diamonds] (c3hole ++ c3comm) ∧
    evaluateWith [5, 10, 13] [Suit.Spades, Suit.Hearts, Suit.Diamonds] c3hole c3comm =
      ⟨.FullHouse, [5, 10], []⟩ ∧
    evaluateWith [10, 5, 13] [Suit.Spades, Suit.Hearts, Suit.Diamonds] c3hole c3comm =
      ⟨.FullHouse, [10, 5], []⟩ := by
  decide

/-- C8 counterexample: `set_bet_amount` does not clamp.  From the freshly
constructed engine (`min_bet = 20`, `max_bet = 500`, `bet_amount = 50`),
requesting 1000 leaves `bet_amount` at 50, not at the clamped value
`min(max_bet, max(min_bet, 1000)) = 500`. -/
theorem set_bet_amount_no_clamp_cex :
    (initState standardDeck).min_bet = 20 ∧ (initState standardDeck).max_bet = 500 ∧
    (set_bet_amount 1000 (initState standardDeck)).bet_amount = 50 ∧
    min (initState standardDeck).max_bet (max (initState standardDeck).min_bet 1000) = 500 := by
  decide

/-- C8 amended: `set_bet_amount(v)` stores `v` when `v` already lies in
`[min_bet, max_bet]` and otherwise leaves `bet_amount` unchanged (it
rejects out-of-range requests instead of clamping them). -/
theorem set_bet_amount_in_range_or_unchanged (s : GameState) (v : Nat) :
    (set_bet_amount v s).bet_amount =
      if s.min_bet ≤ v ∧ v ≤ s.max_bet then v else s.bet_amount := by
  unfold set_bet_amount
  split <;> rfl

/-- C2 counterexample: a failing `start_new_hand` can leave the state
mutated.  With the big blind (seat 0) holding 15 chips — enough to pass the
`MIN_CHIPS_TO_CONTINUE` guard, too little for the 20-chip big blind — the
call fails with `Insufficient chips` after the players were reset, the deck
replaced, hole cards dealt, the pot zeroed and the small blind debited. -/
theorem start_new_hand_partial_mutation_cex :
    (start_new_hand standardDeck sShortBB).2 = some "Insufficient chips" ∧
    (start_new_hand standardDeck sShortBB).1 ≠ sShortBB ∧
    ((start_new_hand standardDeck sShortBB).1.player 1).chips = 90 := by
  decide

/-- C2 amended: every failing `perform_action` leaves the state exactly as
it was (all its validations precede any mutation), and `start_new_hand`
failing its not-enough-players guard does too; only `start_new_hand`
failures past that guard (blind posting with 10..19 chips, or deck
exhaustion) can leave a partially mutated state. -/
theorem errors_leave_state_unchanged :
    (∀ (s : GameState) (o : EvalOrds) (a : PlayerAction) (e : String),
      (perform_action o a s).2 = some e → (perform_action o a s).1 = s) ∧
    (∀ (s : GameState) (d : List Card),
      (s.players.filter (fun p => MIN_CHIPS_TO_CONTINUE ≤ p.chips)).length < 2 →
      start_new_hand d s = (s, some "Not enough players with sufficient chips")) := by
  constructor
  · intro s o a e
    have shape : (perform_action o a s).2 = none ∨
        perform_action o a s = (s, (perform_action o a s).2) := by
      simp only [perform_action]
      cases a
      all_goals repeat' split
      all_goals simp
    intro h
    rcases shape with h2 | h2
    · rw [h2] at h; exact absurd h (by simp)
    · exact congrArg Prod.fst h2
  · intro s d h
    unfold start_new_hand
    simp [h]

/-- C2 witness: the amended theorem applied at concrete inputs — a
`perform_action` with no pending action, and a `start_new_hand` on a table
of broke players. -/
theorem errors_leave_state_unchanged_witness :
    (perform_action noOrds .Check (initState standardDeck)).1 = initState standardDeck ∧
    start_new_hand standardDeck sBroke = (sBroke, some "Not enough players with sufficient chips") :=
  ⟨errors_leave_state_unchanged.1 (initState standardDeck) noOrds .Check "No pending action"
      (by decide),
   errors_leave_state_unchanged.2 sBroke standardDeck (by decide)⟩

/-- C4 counterexample: on the reachable flop state `sFlop` (both
`current_bet`s still 20 from pre-flop, `to_call` reset to 0), the acting
player's `current_bet` differs from `to_call`, yet `Check` succeeds —
refuting "Check succeeds iff `current_bet = to_call`". -/
theorem check_despite_unequal_bet_cex :
    sFlop.pending_action = true ∧
    (sFlop.player sFlop.current_player).folded = false ∧
    (sFlop.player sFlop.current_player).all_in = false ∧
    (sFlop.player sFlop.current_player).current_bet ≠ sFlop.to_call ∧
    (perform_action noOrds .Check sFlop).2 = none := by
  decide

/-- C4 amended: the gate is the saturating call amount, not equality.
`Check` succeeds iff `to_call ≤ current_bet` and fails with the
illegal-check error iff `current_bet < to_call`; `Bet` fails with the
use-raise error iff `current_bet < to_call` (not merely when
`to_call > 0`). -/
theorem check_and_bet_gating (s : GameState) (o : EvalOrds)
    (hp : s.pending_action = true)
    (hf : (s.player s.current_player).folded = false)
    (ha : (s.player s.current_player).all_in = false) :
    ((perform_action o .Check s).2 = none ↔
      s.to_call ≤ (s.player s.current_player).current_bet) ∧
    ((perform_action o .Check s).2 = some "Cannot check when a bet is pending" ↔
      (s.player s.current_player).current_bet < s.to_call) ∧
    ((perform_action o .Bet s).2 = none ↔
      s.to_call ≤ (s.player s.current_player).current_bet) ∧
    ((perform_action o .Bet s).2 = some "Use Raise action instead of Bet when a bet is pending" ↔
      (s.player s.current_player).current_bet < s.to_call) := by
  have hnb : ¬((s.player s.current_player).chips <
      min s.bet_amount (s.player s.current_player).chips) := by omega
  by_cases hlt : (s.player s.current_player).current_bet < s.to_call
  · have h0 : 0 < s.to_call - (s.player s.current_player).current_bet := by omega
    have hres1 : (perform_action o .Check s).2 =
        some "Cannot check when a bet is pending" := by
      simp [perform_action, hp, hf, ha, h0]
    have hres2 : (perform_action o .Bet s).2 =
        some "Use Raise action instead of Bet when a bet is pending" := by
      simp [perform_action, hp, hf, ha, h0]
    rw [hres1, hres2]
    exact ⟨iff_of_false (by simp) (by omega), iff_of_true rfl hlt,
      iff_of_false (by simp) (by omega), iff_of_true rfl hlt⟩
  · have hle : s.to_call ≤ (s.player s.current_player).current_bet := by omega
    have h0 : ¬(0 < s.to_call - (s.player s.current_player).current_bet) := by omega
    have hres1 : (perform_action o .Check s).2 = none := by
      simp [perform_action, hp, hf, ha, h0]
    have hres2 : (perform_action o .Bet s).2 = none := by
      simp [perform_action, hp, hf, ha, h0, Player.bet, hnb]
    rw [hres1, hres2]
    exact ⟨iff_of_true rfl hle, iff_of_false (by simp) (by omega),
      iff_of_true rfl hle, iff_of_false (by simp) (by omega)⟩

/-- C4 witness: the amended theorem applied on the post-blinds state
`sStart`, where the small blind (10 committed) faces `to_call = 20`: its
`Check` fails with the illegal-check error. -/
theorem check_and_bet_gating_witness :
    sStart.pending_action = true ∧
    (perform_action noOrds .Check sStart).2 = some "Cannot check when a bet is pending" :=
  ⟨by decide,
   (check_and_bet_gating sStart noOrds (by decide) (by decide) (by decide)).2.1.mpr (by decide)⟩

/-- C9 counterexample: `from_string` also accepts non-canonical spellings.
`"05♠"` decodes to the five of spades although it is the canonical encoding
of no card (the canonical encoding of the five of spades is `"5♠"`, and
`standardDeck` enumerates all 52 valid cards). -/
theorem from_string_noncanonical_cex :
    fromString ['0', '5', '♠'] = some ⟨5, Suit.Spades⟩ ∧
    (⟨5, Suit.Spades⟩ : Card) ∈ standardDeck ∧
    standardDeck.all (fun c => Card.render c ≠ ['0', '5', '♠']) = true := by
  decide

/-- C9 amended: decoding the canonical encoding of each of the 52 valid
cards returns exactly that card; conversely any accepted string consists of
a rank token that is `A`/`K`/`Q`/`J` or any numeral `parse::<u8>` accepts
with value 2..=14 (so leading zeros, a leading `+`, and `11`..`14` are also
accepted), followed by exactly one suit glyph. -/
theorem from_string_round_trip_and_inversion :
    (standardDeck.all (fun c => fromString (Card.render c) == some c) = true) ∧
    (∀ (s : List Char) (c : Card), fromString s = some c →
      2 ≤ c.rank ∧ c.rank ≤ 14 ∧
      (∃ ch, s.getLast? = some ch ∧ Suit.from_char ch = some c.suit) ∧
      rankOfToken s.dropLast = some c.rank) := by
  constructor
  · decide
  · intro s c h
    simp only [fromString] at h
    repeat' split at h
    all_goals try (injection h with h2)
    all_goals try subst h2
    all_goals simp_all

/-- C9 witness: the inversion half applied at the accepted non-canonical
string `"05♠"`. -/
theorem from_string_inversion_witness :
    2 ≤ (Card.mk 5 Suit.Spades).rank ∧ (Card.mk 5 Suit.Spades).rank ≤ 14 ∧
    (∃ ch, (['0', '5', '♠'] : List Char).getLast? = some ch ∧
      Suit.from_char ch = some (Card.mk 5 Suit.Spades).suit) ∧
    rankOfToken (['0', '5', '♠'] : List Char).dropLast = some (Card.mk 5 Suit.Spades).rank :=
  from_string_round_trip_and_inversion.2 ['0', '5', '♠'] ⟨5, Suit.Spades⟩ (by decide)

/-- Helper: `end_hand` does not touch `pending_action`. -/
theorem pending_end_hand (s : GameState) : (end_hand s).pending_action = s.pending_action := rfl

/-- Helper: dealing community cards does not touch `pending_action`. -/
theorem pending_dealCommunity (c : Nat) (s : GameState) :
    (dealCommunity c s).pending_action = s.pending_action := by
  simp only [dealCommunity]
  split <;> rfl

/-- Helper: running out the board does not touch `pending_action`. -/
theorem pending_runOutLoop (n : Nat) (s : GameState) :
    (runOutLoop n s).pending_action = s.pending_action := by
  induction n generalizing s with
  | zero => rfl
  | succ n ih =>
    simp only [runOutLoop]
    repeat' split
    all_goals simp [ih, pending_dealCommunity]

/-- Helper: showdown resolution does not touch `pending_action`. -/
theorem pending_determine_winner (o : EvalOrds) (s : GameState) :
    (determine_winner o s).pending_action = s.pending_action := by
  simp only [determine_winner]
  repeat' split
  all_goals rfl

/-- Helper: recomputing the bet bounds does not touch `pending_action`. -/
theorem pending_update_action_bounds (s : GameState) :
    (update_action_bounds s).pending_action = s.pending_action := by
  simp only [update_action_bounds]
  repeat' split
  all_goals rfl

/-- Helper: `advance_street` always sets `pending_action` to `true`. -/
theorem pending_advance_street (o : EvalOrds) (s : GameState) :
    (advance_street o s).pending_action = true := by
  simp only [advance_street]
  rw [pending_update_action_bounds]

/-- Helper: `check_street_complete` keeps `pending_action` at `true`. -/
theorem pending_check_street_complete (o : EvalOrds) (s : GameState)
    (h : s.pending_action = true) :
    (check_street_complete o s).pending_action = true := by
  simp only [check_street_complete]
  repeat' split
  all_goals simp [end_hand, GameState.setPlayer, pending_determine_winner, run_out_board,
    pending_runOutLoop, pending_advance_street, h]

/-- Helper: seat advancing does not touch `pending_action`. -/
theorem pending_advanceLoop (n : Nat) (s : GameState) :
    (advanceLoop n s).pending_action = s.pending_action := by
  induction n generalizing s with
  | zero => rfl
  | succ n ih =>
    simp only [advanceLoop]
    split
    · rw [ih]
    · rfl

/-- Helper: the whole post-action advance keeps `pending_action` at
`true`. -/
theorem pending_advance_to_next (o : EvalOrds) (s : GameState) (h : s.pending_action = true) :
    (advance_to_next_player o s).pending_action = true := by
  unfold advance_to_next_player
  exact pending_check_street_complete o _ ((pending_advanceLoop _ _).trans h)

set_option maxHeartbeats 1000000 in
/-- Helper: no `perform_action` outcome (success or error) ever clears
`pending_action`. -/
theorem pending_perform_action (o : EvalOrds) (a : PlayerAction) (s : GameState)
    (h : s.pending_action = true) :
    (perform_action o a s).1.pending_action = true := by
  simp only [perform_action]
  cases a
  all_goals repeat' split
  all_goals first
    | simpa using h
    | (refine pending_advance_to_next o _ ?_
       simpa [GameState.setPlayer] using h)

/-- Helper: `post_blinds` does not touch `pending_action`. -/
theorem pending_post_blinds (s : GameState) :
    (post_blinds s).1.pending_action = s.pending_action := by
  simp only [post_blinds]
  repeat' split
  all_goals rfl

/-- Helper: no `start_new_hand` outcome ever clears `pending_action`. -/
theorem pending_start_new_hand (d : List Card) (s : GameState) (h : s.pending_action = true) :
    (start_new_hand d s).1.pending_action = true := by
  simp only [start_new_hand]
  split
  · simpa using h
  · split
    · simpa using h
    · split
      next sE e heq2 =>
        have h2 := congrArg (fun t : GameState × Option String => t.1.pending_action) heq2
        simp only at h2
        exact h2.symm.trans ((pending_post_blinds _).trans h)
      next sE heq2 => simp [pending_update_action_bounds]

/-- Helper: a successful `start_new_hand` sets `pending_action`. -/
theorem start_success_pending (d : List Card) (s : GameState)
    (h : (start_new_hand d s).2 = none) :
    (start_new_hand d s).1.pending_action = true := by
  revert h
  simp only [start_new_hand]
  repeat' split
  all_goals intro h
  all_goals simp_all [pending_update_action_bounds]

/-- C10: once a hand has successfully started, `pending_action` is never
reset — it stays `true` in every state reachable from there (including the
`HandComplete` states reached by fold or showdown), so a further
`perform_action` call is never rejected with the no-pending-action
error. -/
theorem pending_action_never_reset (s0 : GameState) (d : List Card) (s' : GameState)
    (hok : (start_new_hand d s0).2 = none)
    (hr : ReachFrom (start_new_hand d s0).1 s') :
    s'.pending_action = true ∧
    ∀ (o : EvalOrds) (a : PlayerAction), (perform_action o a s').2 ≠ some "No pending action" := by
  have hmain : s'.pending_action = true := by
    induction hr with
    | refl => exact start_success_pending d s0 hok
    | startStep t d2 _ ih => exact pending_start_new_hand d2 t ih
    | actStep t o a _ ih => exact pending_perform_action o a t ih
  refine ⟨hmain, ?_⟩
  intro o a
  simp only [perform_action, hmain]
  cases a
  all_goals repeat' split
  all_goals simp_all

/-- C10 witness: applied to the reachable `HandComplete` state `sFold`
(hand already resolved by a fold) — `pending_action` is still `true` and
`perform_action` is not rejected as idle there. -/
theorem pending_action_never_reset_witness :
    sFold.pending_action = true ∧
    ∀ (o : EvalOrds) (a : PlayerAction), (perform_action o a sFold).2 ≠ some "No pending action" :=
  pending_action_never_reset (initState standardDeck) standardDeck sFold (by decide)
    (ReachFrom.actStep _ _ noOrds .Fold (ReachFrom.refl _))

/-- Helper: `Nat` comparison swaps. -/
theorem natCompare_swap (a b : Nat) : (compare a b).swap = compare b a := by
  rcases Nat.lt_trichotomy a b with h | h | h
  · rw [Nat.compare_eq_lt.2 h, Nat.compare_eq_gt.2 h]; rfl
  · subst h; rw [Nat.compare_eq_eq.2 rfl]; rfl
  · rw [Nat.compare_eq_gt.2 h, Nat.compare_eq_lt.2 h]; rfl

/-- Helper: `listCmp` answers `eq` exactly on equal lists. -/
theorem listCmp_eq_iff : ∀ (a b : List Nat), listCmp a b = .eq ↔ a = b := by
  intro a
  induction a with
  | nil => intro b; cases b <;> simp [listCmp]
  | cons x xs ih =>
    intro b
    cases b with
    | nil => simp [listCmp]
    | cons y ys =>
      simp only [listCmp]
      cases h : compare x y with
      | lt =>
        have hx := Nat.compare_eq_lt.1 h
        exact iff_of_false (by simp) (fun hc => by cases hc; omega)
      | eq =>
        have hx := Nat.compare_eq_eq.1 h
        subst hx
        simp [ih]
      | gt =>
        have hx := Nat.compare_eq_gt.1 h
        exact iff_of_false (by simp) (fun hc => by cases hc; omega)

/-- Helper: `listCmp` swaps. -/
theorem listCmp_swap : ∀ (a b : List Nat), (listCmp a b).swap = listCmp b a := by
  intro a
  induction a with
  | nil => intro b; cases b <;> rfl
  | cons x xs ih =>
    intro b
    cases b with
    | nil => rfl
    | cons y ys =>
      simp only [listCmp]
      rw [← natCompare_swap x y]
      cases compare x y with
      | lt => rfl
      | eq => exact ih ys
      | gt => rfl

/-- Helper: `listCmp`'s strict order is transitive. -/
theorem listCmp_lt_trans : ∀ (a b c : List Nat),
    listCmp a b = .lt → listCmp b c = .lt → listCmp a c = .lt := by
  intro a
  induction a with
  | nil =>
    intro b c h1 h2
    cases b with
    | nil => exact h2
    | cons y ys =>
      cases c with
      | nil => simp [listCmp] at h2
      | cons z zs => rfl
  | cons x xs ih =>
    intro b c h1 h2
    cases b with
    | nil => simp [listCmp] at h1
    | cons y ys =>
      cases c with
      | nil => simp [listCmp] at h2
      | cons z zs =>
        simp only [listCmp] at h1 h2 ⊢
        cases hxy : compare x y <;> rw [hxy] at h1 <;> simp at h1
        · have hx := Nat.compare_eq_lt.1 hxy
          cases hyz : compare y z <;> rw [hyz] at h2 <;> simp at h2
          · have hy := Nat.compare_eq_lt.1 hyz
            rw [Nat.compare_eq_lt.2 (by omega)]
          · have hy := Nat.compare_eq_eq.1 hyz
            rw [Nat.compare_eq_lt.2 (by omega)]
        · have hx := Nat.compare_eq_eq.1 hxy
          cases hyz : compare y z <;> rw [hyz] at h2 <;> simp at h2
          · have hy := Nat.compare_eq_lt.1 hyz
            rw [Nat.compare_eq_lt.2 (by omega)]
          · have hy := Nat.compare_eq_eq.1 hyz
            rw [Nat.compare_eq_eq.2 (by omega)]
            exact ih ys zs h1 h2

/-- Helper: the `HandRank` discriminants are distinct. -/
theorem handRank_toNat_inj : ∀ (r1 r2 : HandRank), r1.toNat = r2.toNat → r1 = r2 := by
  intro r1 r2
  cases r1 <;> cases r2 <;> simp [HandRank.toNat]

/-- Helper: `ehCmp` answers `eq` exactly on equal hands. -/
theorem ehCmp_eq_iff (x y : EvaluatedHand) : ehCmp x y = .eq ↔ x = y := by
  unfold ehCmp
  rw [Ordering.then_eq_eq, Ordering.then_eq_eq, Nat.compare_eq_eq, listCmp_eq_iff, listCmp_eq_iff]
  constructor
  · rintro ⟨h1, h2, h3⟩
    cases x; cases y
    simp_all
    exact handRank_toNat_inj _ _ h1
  · rintro rfl
    exact ⟨rfl, rfl, rfl⟩

/-- Helper: `ehCmp` swaps. -/
theorem ehCmp_swap (x y : EvaluatedHand) : (ehCmp x y).swap = ehCmp y x := by
  unfold ehCmp
  rw [Ordering.swap_then, Ordering.swap_then, natCompare_swap, listCmp_swap, listCmp_swap]

/-- Helper: `ehCmp`'s `gt` is the swap of `lt`. -/
theorem ehCmp_gt_iff (x y : EvaluatedHand) : ehCmp x y = .gt ↔ ehCmp y x = .lt := by
  rw [← ehCmp_swap x y]
  cases ehCmp x y <;> simp [Ordering.swap]

/-- Helper: `ehCmp`'s strict order is transitive. -/
theorem ehCmp_lt_trans {x y z : EvaluatedHand}
    (h1 : ehCmp x y = .lt) (h2 : ehCmp y z = .lt) : ehCmp x z = .lt := by
  unfold ehCmp at h1 h2 ⊢
  simp only [Ordering.then_eq_lt] at h1 h2 ⊢
  rcases h1 with h1 | ⟨h1e, h1⟩
  · rcases h2 with h2 | ⟨h2e, h2⟩
    · have a1 := Nat.compare_eq_lt.1 h1
      have a2 := Nat.compare_eq_lt.1 h2
      exact Or.inl (Nat.compare_eq_lt.2 (by omega))
    · have a1 := Nat.compare_eq_lt.1 h1
      have a2 := Nat.compare_eq_eq.1 h2e
      exact Or.inl (Nat.compare_eq_lt.2 (by omega))
  · rcases h2 with h2 | ⟨h2e, h2⟩
    · have a1 := Nat.compare_eq_eq.1 h1e
      have a2 := Nat.compare_eq_lt.1 h2
      exact Or.inl (Nat.compare_eq_lt.2 (by omega))
    · have a1 := Nat.compare_eq_eq.1 h1e
      have a2 := Nat.compare_eq_eq.1 h2e
      refine Or.inr ⟨Nat.compare_eq_eq.2 (by omega), ?_⟩
      rcases h1 with h1 | ⟨h1p, h1⟩
      · rcases h2 with h2 | ⟨h2p, h2⟩
        · exact Or.inl (listCmp_lt_trans _ _ _ h1 h2)
        · rw [listCmp_eq_iff] at h2p
          exact Or.inl (h2p ▸ h1)
      · rcases h2 with h2 | ⟨h2p, h2⟩
        · rw [listCmp_eq_iff] at h1p
          exact Or.inl (h1p ▸ h2)
        · rw [listCmp_eq_iff] at h1p h2p
          refine Or.inr ⟨listCmp_eq_iff _ _ |>.2 (h1p.trans h2p), listCmp_lt_trans _ _ _ h1 h2⟩

/-- Helper: a hand not above the old best stays not above a new best that
beat the old best. -/
theorem ehCmp_not_gt_of_gt {x z m : EvaluatedHand}
    (h1 : ehCmp x m ≠ .gt) (h2 : ehCmp z m = .gt) : ehCmp x z ≠ .gt := by
  intro hc
  have hmz : ehCmp m z = .lt := (ehCmp_gt_iff z m).1 h2
  have hzx : ehCmp z x = .lt := (ehCmp_gt_iff x z).1 hc
  exact h1 ((ehCmp_gt_iff x m).2 (ehCmp_lt_trans hmz hzx))

/-- Helper: indices of active players are in range. -/
theorem active_lt (s : GameState) : ∀ j ∈ activePlayers s, j < s.players.length := by
  intro j hj
  unfold activePlayers at hj
  exact List.mem_range.1 (List.mem_of_mem_filter hj)

/-- Helper: the active list is strictly increasing. -/
theorem active_pairwise (s : GameState) : (activePlayers s).Pairwise (· < ·) :=
  (List.pairwise_lt_range _).sublist (List.filter_sublist _)

/-- Helper: full characterisation of the winner-selection loop, by
induction along the remaining seats.  `processed` are the seats already
folded into the running best `m`; the winner accumulator is exactly the
processed seats whose hand equals the running best. -/
theorem winnersLoop_go (o : EvalOrds) (s : GameState) :
    ∀ (l processed : List Nat) (m : EvaluatedHand),
      (∀ j ∈ processed, ehCmp (handOf o s j) m ≠ .gt) →
      (∃ j ∈ processed, handOf o s j = m) →
      ∃ m',
        winnersLoop o s l (some m) (processed.filter (fun j => handOf o s j = m)) =
          (some m', (processed ++ l).filter (fun j => handOf o s j = m')) ∧
        (∀ j ∈ processed ++ l, ehCmp (handOf o s j) m' ≠ .gt) ∧
        (∃ j ∈ processed ++ l, handOf o s j = m') := by
  intro l
  induction l with
  | nil =>
    intro processed m hinv hex
    exact ⟨m, by simp [winnersLoop], by simpa using hinv, by simpa using hex⟩
  | cons i rest ih =>
    intro processed m hinv hex
    rw [show winnersLoop o s (i :: rest) (some m)
          (processed.filter (fun j => handOf o s j = m)) =
        (match ehCmp (handOf o s i) m with
         | .gt => winnersLoop o s rest (some (handOf o s i)) [i]
         | .eq => winnersLoop o s rest (some m)
             (processed.filter (fun j => handOf o s j = m) ++ [i])
         | .lt => winnersLoop o s rest (some m)
             (processed.filter (fun j => handOf o s j = m))) from rfl]
    cases hcmp : ehCmp (handOf o s i) m with
    | gt =>
      have hfe : (processed ++ [i]).filter (fun j => handOf o s j = handOf o s i) = [i] := by
        rw [List.filter_append]
        have h1 : processed.filter (fun j => handOf o s j = handOf o s i) = [] := by
          rw [List.filter_eq_nil_iff]
          intro j hj
          simp only [decide_eq_true_eq]
          intro hEq
          exact hinv j hj (hEq ▸ hcmp)
        rw [h1]
        simp
      obtain ⟨m', hl, hi2, he2⟩ := ih (processed ++ [i]) (handOf o s i)
        (by
          intro j hj
          rcases List.mem_append.1 hj with hj | hj
          · exact ehCmp_not_gt_of_gt (hinv j hj) hcmp
          · rw [List.mem_singleton.1 hj, (ehCmp_eq_iff _ _).2 rfl]
            simp)
        ⟨i, by simp, rfl⟩
      rw [hfe] at hl
      refine ⟨m', hl.trans (by rw [List.append_assoc]; rfl), ?_, ?_⟩
      · intro j hj
        exact hi2 j (by simpa [List.append_assoc] using hj)
      · obtain ⟨j, hj, hje⟩ := he2
        exact ⟨j, by simpa [List.append_assoc] using hj, hje⟩
    | eq =>
      have hEq : handOf o s i = m := (ehCmp_eq_iff _ _).1 hcmp
      have hfe : (processed ++ [i]).filter (fun j => handOf o s j = m) =
          processed.filter (fun j => handOf o s j = m) ++ [i] := by
        rw [List.filter_append]
        simp [hEq]
      obtain ⟨m', hl, hi2, he2⟩ := ih (processed ++ [i]) m
        (by
          intro j hj
          rcases List.mem_append.1 hj with hj | hj
          · exact hinv j hj
          · rw [List.mem_singleton.1 hj, hcmp]
            simp)
        (let ⟨j, hj, hje⟩ := hex; ⟨j, List.mem_append_left _ hj, hje⟩)
      rw [hfe] at hl
      refine ⟨m', hl.trans (by rw [List.append_assoc]; rfl), ?_, ?_⟩
      · intro j hj
        exact hi2 j (by simpa [List.append_assoc] using hj)
      · obtain ⟨j, hj, hje⟩ := he2
        exact ⟨j, by simpa [List.append_assoc] using hj, hje⟩
    | lt =>
      have hne : handOf o s i ≠ m := by
        intro hEq
        rw [(ehCmp_eq_iff _ _).2 hEq] at hcmp
        cases hcmp
      have hfe : (processed ++ [i]).filter (fun j => handOf o s j = m) =
          processed.filter (fun j => handOf o s j = m) := by
        rw [List.filter_append]
        simp [hne]
      obtain ⟨m', hl, hi2, he2⟩ := ih (processed ++ [i]) m
        (by
          intro j hj
          rcases List.mem_append.1 hj with hj | hj
          · exact hinv j hj
          · rw [List.mem_singleton.1 hj, hcmp]
            simp)
        (let ⟨j, hj, hje⟩ := hex; ⟨j, List.mem_append_left _ hj, hje⟩)
      rw [hfe] at hl
      refine ⟨m', hl.trans (by rw [List.append_assoc]; rfl), ?_, ?_⟩
      · intro j hj
        exact hi2 j (by simpa [List.append_assoc] using hj)
      · obtain ⟨j, hj, hje⟩ := he2
        exact ⟨j, by simpa [List.append_assoc] using hj, hje⟩

/-- Helper: chips after the payout fold — each distinct winner index in
range is credited `split` exactly once. -/
theorem payWinners_getD (split : Nat) :
    ∀ (ws : List Nat) (ps : List Player), ws.Nodup →
      ∀ i, i < ps.length →
        (payWinners ws split ps).getD i defaultPlayer =
          if i ∈ ws
          then (ps.getD i defaultPlayer).collect_pot split
          else ps.getD i defaultPlayer := by
  intro ws
  induction ws with
  | nil =>
    intro ps _ i _
    simp [payWinners]
  | cons w rest ih =>
    intro ps hnd i hi
    have hw : payWinners (w :: rest) split ps =
        payWinners rest split (ps.set w ((ps.getD w defaultPlayer).collect_pot split)) := rfl
    rw [hw, ih _ (List.Nodup.of_cons hnd) i (by simpa using hi)]
    by_cases hiw : i = w
    · subst hiw
      have hnotin : i ∉ rest := (List.nodup_cons.1 hnd).1
      simp [hnotin, List.getD, List.getElem?_set, hi]
    · by_cases hir : i ∈ rest <;>
        simp [hir, hiw, List.getD, List.getElem?_set, Ne.symm hiw]

/-- Helper: the length of the payout fold's result. -/
theorem payWinners_length (split : Nat) :
    ∀ (ws : List Nat) (ps : List Player), (payWinners ws split ps).length = ps.length := by
  intro ws
  induction ws with
  | nil => intro ps; rfl
  | cons w rest ih =>
    intro ps
    have hw : payWinners (w :: rest) split ps =
        payWinners rest split (ps.set w ((ps.getD w defaultPlayer).collect_pot split)) := rfl
    rw [hw, ih]
    simp

/-- C7: showdown split.  With at least two non-folded players,
`determine_winner` elects a maximal hand `m` realised by some active
player; the winner set is exactly the active players whose evaluated hand
equals `m`, it is non-empty, its first element is the lowest winning seat
index, every winner is credited `pot / winner_count`, and the remainder
`pot % winner_count` goes entirely to that lowest-indexed winner. -/
theorem showdown_split (o : EvalOrds) (s : GameState)
    (hact : 2 ≤ (activePlayers s).length) :
    ∃ m : EvaluatedHand,
      (∀ j ∈ activePlayers s, ehCmp (handOf o s j) m ≠ .gt) ∧
      (∃ j ∈ activePlayers s, handOf o s j = m) ∧
      (let winners := (activePlayers s).filter (fun j => handOf o s j = m)
       winners ≠ [] ∧
       (∀ j ∈ winners, winners.headD 0 ≤ j) ∧
       ∀ i, i < s.players.length →
         ((determine_winner o s).player i).chips =
           (s.player i).chips
             + (if i ∈ winners then s.pot / winners.length else 0)
             + (if winners.headD 0 = i then s.pot % winners.length else 0)) := by
  obtain ⟨i0, rest, hactive⟩ : ∃ i0 rest, activePlayers s = i0 :: rest := by
    cases h : activePlayers s with
    | nil => rw [h] at hact; simp at hact
    | cons a t => exact ⟨a, t, rfl⟩
  obtain ⟨m, hloop, hinv, hex⟩ := winnersLoop_go o s rest [i0] (handOf o s i0)
    (by
      intro j hj
      rw [List.mem_singleton.1 hj, (ehCmp_eq_iff _ _).2 rfl]
      simp)
    ⟨i0, List.mem_singleton.2 rfl, rfl⟩
  rw [show ([i0].filter (fun j => handOf o s j = handOf o s i0)) = [i0] by simp] at hloop
  rw [List.singleton_append, ← hactive] at hinv hex
  have hstep : winnersLoop o s (activePlayers s) none [] =
      (some m, (activePlayers s).filter (fun j => handOf o s j = m)) := by
    rw [hactive]
    exact (rfl : winnersLoop o s (i0 :: rest) none [] =
        winnersLoop o s rest (some (handOf o s i0)) [i0]).trans
      (hloop.trans (by rw [List.singleton_append]))
  refine ⟨m, hinv, hex, ?_, ?_, ?_⟩
  · obtain ⟨j, hj, hje⟩ := hex
    exact List.ne_nil_of_mem (List.mem_filter.2 ⟨hj, by simp [hje]⟩)
  · have hpw : ((activePlayers s).filter (fun j => handOf o s j = m)).Pairwise (· < ·) :=
      (active_pairwise s).sublist (List.filter_sublist _)
    intro j hj
    cases hw : (activePlayers s).filter (fun j => handOf o s j = m) with
    | nil => rw [hw] at hj; cases hj
    | cons a t =>
      rw [hw] at hj hpw
      rcases List.mem_cons.1 hj with rfl | hj
      · simp
      · have := (List.pairwise_cons.1 hpw).1 j hj
        simp
        omega
  · intro i hi
    have hwne : (activePlayers s).filter (fun j => handOf o s j = m) ≠ [] := by
      obtain ⟨j, hj, hje⟩ := hex
      exact List.ne_nil_of_mem (List.mem_filter.2 ⟨hj, by simp [hje]⟩)
    have hwsub : ∀ j ∈ (activePlayers s).filter (fun j => handOf o s j = m),
        j < s.players.length := fun j hj => active_lt s j (List.mem_of_mem_filter hj)
    have hwnd : ((activePlayers s).filter (fun j => handOf o s j = m)).Nodup :=
      (((List.nodup_range _).filter _).filter _)
    have hne1 : ¬((activePlayers s).length = 1) := by omega
    have hhead : ((activePlayers s).filter (fun j => handOf o s j = m)).headD 0 ∈
        (activePlayers s).filter (fun j => handOf o s j = m) := by
      cases hw : (activePlayers s).filter (fun j => handOf o s j = m) with
      | nil => exact absurd hw hwne
      | cons a t => simp
    simp only [determine_winner]
    rw [if_neg hne1, hstep]
    simp only [List.isEmpty_eq_false.2 hwne, Bool.false_eq_true, if_false]
    have hgds : ∀ (l : List Player) (k : Nat) (a : Player), k < l.length →
        (l.set k a).getD k defaultPlayer = a := by
      intro l k a hk
      simp [List.getD, List.getElem?_set, hk]
    have hgdn : ∀ (l : List Player) (k j : Nat) (a : Player), k ≠ j →
        (l.set k a).getD j defaultPlayer = l.getD j defaultPlayer := by
      intro l k j a hk
      simp [List.getD, List.getElem?_set, hk]
    have hlenpw : (payWinners ((activePlayers s).filter (fun j => handOf o s j = m))
        (s.pot / ((activePlayers s).filter (fun j => handOf o s j = m)).length)
        s.players).length = s.players.length := payWinners_length _ _ _
    have hheadlt : ((activePlayers s).filter (fun j => handOf o s j = m)).headD 0 <
        s.players.length := hwsub _ hhead
    by_cases hrem : 0 < s.pot % ((activePlayers s).filter (fun j => handOf o s j = m)).length
    · rw [if_pos hrem]
      simp only [end_hand, GameState.player, GameState.setPlayer]
      by_cases hih : ((activePlayers s).filter (fun j => handOf o s j = m)).headD 0 = i
      · subst hih
        rw [hgds _ _ _ (by rw [hlenpw]; exact hheadlt)]
        simp only [GameState.player]
        rw [payWinners_getD _ _ _ hwnd _ hheadlt, if_pos hhead, if_pos hhead]
        simp [Player.collect_pot]
      · rw [hgdn _ _ _ _ hih]
        rw [payWinners_getD _ _ _ hwnd i hi, if_neg hih]
        by_cases him : i ∈ (activePlayers s).filter (fun j => handOf o s j = m)
        · rw [if_pos him, if_pos him]
          simp [Player.collect_pot]
        · rw [if_neg him, if_neg him]
          simp
    · rw [if_neg hrem]
      simp only [end_hand, GameState.player, GameState.setPlayer]
      rw [payWinners_getD _ _ _ hwnd i hi]
      have hrem0 : s.pot % ((activePlayers s).filter (fun j => handOf o s j = m)).length = 0 := by
        omega
      by_cases him : i ∈ (activePlayers s).filter (fun j => handOf o s j = m)
      · rw [if_pos him, if_pos him]
        simp [Player.collect_pot, hrem0]
      · rw [if_neg him, if_neg him]
        simp [hrem0]

/-- C7 witness: a reachable-shaped concrete showdown — two active players
tied with Ace-high over a fixed board and an odd pot of 101 chips: each
receives 50 and seat 0 (the lowest-indexed winner) the extra chip. -/
theorem showdown_split_witness :
    2 ≤ (activePlayers wState).length ∧
    (∃ m : EvaluatedHand,
      (∀ j ∈ activePlayers wState, ehCmp (handOf wOrds wState j) m ≠ .gt) ∧
      (∃ j ∈ activePlayers wState, handOf wOrds wState j = m) ∧
      (let winners := (activePlayers wState).filter (fun j => handOf wOrds wState j = m)
       winners ≠ [] ∧
       (∀ j ∈ winners, winners.headD 0 ≤ j) ∧
       ∀ i, i < wState.players.length →
         ((determine_winner wOrds wState).player i).chips =
           (wState.player i).chips
             + (if i ∈ winners then wState.pot / winners.length else 0)
             + (if winners.headD 0 = i then wState.pot % winners.length else 0))) :=
  ⟨by decide, showdown_split wOrds wState (by decide)⟩

/-- C5 counterexample: on hearts 2,3,4,5,6,8 plus an off-suit king, the
five highest ranks of the flush suit are 8,6,5,4,3, which are not
consecutive — the claim demands a plain flush — yet `evaluate` returns a
straight flush on the lower window 6-5-4-3-2 (the window scan in
`find_straight` returns the lowest run, not the top five ranks). -/
theorem flush_lowest_window_cex :
    validRankOrd [2, 3, 4, 5, 6, 8, 13] (c5hole ++ c5comm) ∧
    validSuitOrd [Suit.Hearts, Suit.Spades] (c5hole ++ c5comm) ∧
    5 ≤ (suitRanks (c5hole ++ c5comm) Suit.Hearts).length ∧
    (sortDesc (suitRanks (c5hole ++ c5comm) Suit.Hearts)).take 5 = [8, 6, 5, 4, 3] ∧
    ¬descConsecutive [8, 6, 5, 4, 3] ∧
    evaluateWith [2, 3, 4, 5, 6, 8, 13] [Suit.Hearts, Suit.Spades] c5hole c5comm =
      ⟨.StraightFlush, [6, 5, 4, 3, 2], []⟩ := by
  decide

/-- Helper: a `countP` splits along any second predicate. -/
theorem countP_and_split {α : Type} (l : List α) (p q : α → Bool) :
    l.countP p = l.countP (fun a => p a && q a) + l.countP (fun a => p a && !q a) := by
  induction l with
  | nil => rfl
  | cons x t ih =>
    simp only [List.countP_cons]
    cases hp : p x <;> cases hq : q x <;> simp [hp, hq] <;> omega

/-- Helper: counts of two mutually exclusive predicates sum to at most the
length. -/
theorem countP_disjoint_le {α : Type} (l : List α) (p q : α → Bool)
    (h : ∀ a, ¬(p a = true ∧ q a = true)) :
    l.countP p + l.countP q ≤ l.length := by
  induction l with
  | nil => simp
  | cons x t ih =>
    simp only [List.countP_cons, List.length_cons]
    have := h x
    cases hp : p x <;> cases hq : q x <;> simp [hp, hq] at this ⊢ <;> omega

/-- Helper: in a duplicate-free card list at most one card has a given
rank and suit. -/
theorem countP_rank_suit_le_one (l : List Card) (hnd : l.Nodup) (r : Nat) (su : Suit) :
    l.countP (fun c => c.rank == r && c.suit == su) ≤ 1 := by
  induction l with
  | nil => simp
  | cons x t ih =>
    rw [List.nodup_cons] at hnd
    rw [List.countP_cons]
    by_cases hx : (x.rank == r && x.suit == su) = true
    · have hxe : x = Card.mk r su := by
        cases x
        simp only [Bool.and_eq_true, beq_iff_eq] at hx
        simp [hx.1, hx.2]
      have ht0 : t.countP (fun c => c.rank == r && c.suit == su) = 0 := by
        rw [List.countP_eq_zero]
        intro c hc hpc
        have hce : c = Card.mk r su := by
          cases c
          simp only [Bool.and_eq_true, beq_iff_eq] at hpc
          simp [hpc.1, hpc.2]
        exact hnd.1 (by rw [hxe, ← hce]; exact hc)
      simp [hx, ht0]
    · simp only [hx]
      simpa using ih hnd.2

/-- Helper: number of cards of rank `r` bounded by one in-suit card plus
the off-suit cards. -/
theorem rank_count_bound (cards : List Card) (hnd : cards.Nodup) (su : Suit) (r : Nat) :
    (cards.map Card.rank).count r ≤ 1 + cards.countP (fun c => c.rank == r && !(c.suit == su)) := by
  have hmap : (cards.map Card.rank).count r = cards.countP (fun c => c.rank == r) := by
    rw [List.count, List.countP_map]
    rfl
  rw [hmap, countP_and_split cards _ (fun c => c.suit == su)]
  have h1 := countP_rank_suit_le_one cards hnd r su
  omega

/-- Helper: the off-suit cards number at most `length - suit count`. -/
theorem offsuit_count_bound (cards : List Card) (su : Suit) (r : Nat) :
    cards.countP (fun c => c.rank == r && !(c.suit == su)) ≤
      cards.length - cards.countP (fun c => c.suit == su) := by
  have h1 : cards.countP (fun c => c.rank == r && !(c.suit == su)) ≤
      cards.countP (fun c => !(c.suit == su)) := by
    apply List.countP_mono_left
    intro c _ hc
    simp only [Bool.and_eq_true] at hc
    exact hc.2
  have h2 : cards.countP (fun c => c.suit == su) + cards.countP (fun c => !(c.suit == su)) ≤
      cards.length := by
    apply countP_disjoint_le
    intro a hc
    rcases hc with ⟨hc1, hc2⟩
    simp [hc1] at hc2
  omega

/-- Helper: with at most 7 distinct cards, 5 of one suit, no rank occurs
four times. -/
theorem rank_count_le_three (cards : List Card) (hnd : cards.Nodup)
    (h7 : cards.length ≤ 7) (su : Suit)
    (hsu : 5 ≤ cards.countP (fun c => c.suit == su)) (r : Nat) :
    (cards.map Card.rank).count r ≤ 3 := by
  have h1 := rank_count_bound cards hnd su r
  have h2 := offsuit_count_bound cards su r
  have h3 : cards.countP (fun c => c.suit == su) ≤ cards.length := List.countP_le_length _
  omega

/-- Helper: with at most 7 distinct cards, 5 of one suit, no two distinct
ranks can have counts 3 and 2 (no full-house pattern). -/
theorem no_full_house_pattern (cards : List Card) (hnd : cards.Nodup)
    (h7 : cards.length ≤ 7) (su : Suit)
    (hsu : 5 ≤ cards.countP (fun c => c.suit == su)) (a b : Nat) (hab : a ≠ b)
    (ha : 3 ≤ (cards.map Card.rank).count a) : ¬(2 ≤ (cards.map Card.rank).count b) := by
  intro hb
  have hba := rank_count_bound cards hnd su a
  have hbb := rank_count_bound cards hnd su b
  have hdis : cards.countP (fun c => c.rank == a && !(c.suit == su)) +
      cards.countP (fun c => c.rank == b && !(c.suit == su)) ≤
      cards.countP (fun c => !(c.suit == su)) := by
    have heq : cards.countP (fun c => !(c.suit == su)) =
        cards.countP (fun c => !(c.suit == su) && c.rank == a) +
        cards.countP (fun c => !(c.suit == su) && !(c.rank == a)) :=
      countP_and_split cards _ _
    have hc1 : cards.countP (fun c => c.rank == a && !(c.suit == su)) =
        cards.countP (fun c => !(c.suit == su) && c.rank == a) := by
      apply List.countP_congr
      intro c _
      simp [Bool.and_comm]
    have hc2 : cards.countP (fun c => c.rank == b && !(c.suit == su)) ≤
        cards.countP (fun c => !(c.suit == su) && !(c.rank == a)) := by
      apply List.countP_mono_left
      intro c _ hc
      simp only [Bool.and_eq_true] at hc ⊢
      refine ⟨hc.2, ?_⟩
      simp only [Bool.not_eq_true', beq_eq_false_iff_ne, ne_eq]
      have := hc.1
      simp only [beq_iff_eq] at this
      omega
    omega
  have hoff : cards.countP (fun c => !(c.suit == su)) ≤
      cards.length - cards.countP (fun c => c.suit == su) := by
    have h2 : cards.countP (fun c => c.suit == su) + cards.countP (fun c => !(c.suit == su)) ≤
        cards.length := by
      apply countP_disjoint_le
      intro x hc
      rcases hc with ⟨hc1, hc2⟩
      simp [hc1] at hc2
    omega
  omega

/-- Helper: `find?` returns the unique element satisfying the predicate. -/
theorem find?_eq_some_of_unique {α : Type} (l : List α) (p : α → Bool) (x : α)
    (hx : x ∈ l) (hpx : p x = true) (huniq : ∀ y ∈ l, p y = true → y = x) :
    l.find? p = some x := by
  induction l with
  | nil => cases hx
  | cons a t ih =>
    rw [List.find?]
    cases hpa : p a
    · have hax : ¬ x = a := fun hEq => by rw [hEq, hpa] at hpx; cases hpx
      have hxt : x ∈ t := by
        rcases List.mem_cons.1 hx with h | h
        · exact absurd h hax
        · exact h
      exact ih hxt (fun y hy hpy => huniq y (List.mem_cons_of_mem a hy) hpy)
    · rw [huniq a (List.mem_cons_self a t) hpa]

/-- Helper: membership is preserved by `dedupAdj`. -/
theorem mem_dedupAdj : ∀ (l : List Nat) (x : Nat), x ∈ dedupAdj l ↔ x ∈ l := by
  intro l
  induction l with
  | nil => intro x; rfl
  | cons a t ih =>
    intro x
    cases t with
    | nil => rfl
    | cons b t2 =>
      rw [dedupAdj]
      split
      · rename_i hab
        rw [ih x]
        subst hab
        simp [List.mem_cons]
      · simp [List.mem_cons, ih x]

/-- Helper: `dedupAdj` of a weakly-sorted list is strictly sorted. -/
theorem pairwise_dedupAdj : ∀ (l : List Nat), l.Sorted (· ≤ ·) →
    (dedupAdj l).Pairwise (· < ·) := by
  intro l
  induction l with
  | nil => intro _; exact List.Pairwise.nil
  | cons a t ih =>
    intro hs
    cases t with
    | nil => simp [dedupAdj]
    | cons b t2 =>
      have hs2 : (b :: t2).Sorted (· ≤ ·) := hs.of_cons
      have hab : a ≤ b := (List.pairwise_cons.1 hs).1 b (List.mem_cons_self b t2)
      rw [dedupAdj]
      split
      · exact ih hs2
      · rename_i hne
        refine List.pairwise_cons.2 ⟨?_, ih hs2⟩
        intro x hx
        rw [mem_dedupAdj] at hx
        rcases List.mem_cons.1 hx with rfl | hx
        · omega
        · have := (List.pairwise_cons.1 hs).1 x (List.mem_cons_of_mem b hx)
          have hbx : b ≤ x := (List.pairwise_cons.1 hs2).1 x hx
          omega

/-- Helper: a strictly sorted list containing five consecutive values has
length at least five. -/
theorem length_ge_five_of_run (L : List Nat) (hL : L.Pairwise (· < ·)) (lo : Nat)
    (hrun : ∀ k < 5, lo + k ∈ L) : 5 ≤ L.length := by
  have hnd : L.Nodup := hL.imp (fun h => Nat.ne_of_lt h)
  have hsub : ((List.range 5).map (fun k => lo + k)).toFinset ⊆ L.toFinset := by
    intro x hx
    rw [List.mem_toFinset] at hx ⊢
    obtain ⟨k, hk, rfl⟩ := List.mem_map.1 hx
    exact hrun k (List.mem_range.1 hk)
  have hcard1 : ((List.range 5).map (fun k => lo + k)).toFinset.card = 5 := by
    rw [List.toFinset_card_of_nodup]
    · simp
    · refine (List.nodup_range 5).map ?_
      intro x y hxy
      exact Nat.add_left_cancel hxy
  have hcard2 := Finset.card_le_card hsub
  have hcard3 := L.toFinset_card_le
  omega

/-- Helper: a run whose start is not the head of a strictly sorted list
lies entirely in the tail. -/
theorem run_in_tail (a : Nat) (t : List Nat) (hp : (a :: t).Pairwise (· < ·)) (lo : Nat)
    (hne : lo ≠ a) (hrun : ∀ k < 5, lo + k ∈ a :: t) : ∀ k < 5, lo + k ∈ t := by
  have hmem : lo ∈ a :: t := by have := hrun 0 (by omega); simpa using this
  have hlo : a < lo := by
    rcases List.mem_cons.1 hmem with h | h
    · exact absurd h hne
    · exact (List.pairwise_cons.1 hp).1 lo h
  intro k hk
  rcases List.mem_cons.1 (hrun k hk) with h | h
  · omega
  · exact h

/-- Helper: a run starting at the head of a strictly sorted list forces
its first five entries to be consecutive. -/
theorem head_run_consecutive (a b c d e : Nat) (t : List Nat)
    (hp : (a :: b :: c :: d :: e :: t).Pairwise (· < ·))
    (hrun : ∀ k < 5, a + k ∈ a :: b :: c :: d :: e :: t) :
    b = a + 1 ∧ c = b + 1 ∧ d = c + 1 ∧ e = d + 1 := by
  obtain ⟨ha, hp⟩ := List.pairwise_cons.1 hp
  obtain ⟨hb, hp⟩ := List.pairwise_cons.1 hp
  obtain ⟨hc, hp⟩ := List.pairwise_cons.1 hp
  obtain ⟨hd, hp⟩ := List.pairwise_cons.1 hp
  obtain ⟨he, _⟩ := List.pairwise_cons.1 hp
  have hab : a < b := ha b (by simp)
  have hbc : b < c := hb c (by simp)
  have hcd : c < d := hc d (by simp)
  have hde : d < e := hd e (by simp)
  have hana : ∀ v, v ∈ a :: b :: c :: d :: e :: t →
      v = a ∨ v = b ∨ v = c ∨ v = d ∨ v = e ∨ e < v := by
    intro v hv
    simp only [List.mem_cons] at hv
    rcases hv with rfl | rfl | rfl | rfl | rfl | hv
    · exact Or.inl rfl
    · exact Or.inr (Or.inl rfl)
    · exact Or.inr (Or.inr (Or.inl rfl))
    · exact Or.inr (Or.inr (Or.inr (Or.inl rfl)))
    · exact Or.inr (Or.inr (Or.inr (Or.inr (Or.inl rfl))))
    · exact Or.inr (Or.inr (Or.inr (Or.inr (Or.inr (he v hv)))))
  have k1 := hana _ (hrun 1 (by omega))
  have k2 := hana _ (hrun 2 (by omega))
  have k3 := hana _ (hrun 3 (by omega))
  have k4 := hana _ (hrun 4 (by omega))
  omega

/-- Helper: if the scan misses, there is no run (over strictly sorted
input). -/
theorem firstRun_none : ∀ (L : List Nat), L.Pairwise (· < ·) → firstRun L = none →
    ∀ lo, ¬(∀ k < 5, lo + k ∈ L) := by
  intro L
  induction L with
  | nil =>
    intro _ _ lo hrun
    simpa using hrun 0 (by omega)
  | cons a t ih =>
    intro hp hnone lo hrun
    cases t with
    | nil => simpa using length_ge_five_of_run _ hp lo hrun
    | cons b t2 =>
      cases t2 with
      | nil => simpa using length_ge_five_of_run _ hp lo hrun
      | cons c t3 =>
        cases t3 with
        | nil => simpa using length_ge_five_of_run _ hp lo hrun
        | cons d t4 =>
          cases t4 with
          | nil => simpa using length_ge_five_of_run _ hp lo hrun
          | cons e t5 =>
            rw [firstRun] at hnone
            split at hnone
            · cases hnone
            · rename_i hcond
              by_cases hlo : lo = a
              · subst hlo
                exact hcond (head_run_consecutive lo b c d e t5 hp hrun)
              · exact ih hp.of_cons hnone lo (run_in_tail a _ hp lo hlo hrun)

/-- Helper: if the scan hits, it returns the window starting at the least
run start (over strictly sorted input). -/
theorem firstRun_some : ∀ (L : List Nat), L.Pairwise (· < ·) → ∀ w, firstRun L = some w →
    ∃ lo, w = [lo, lo + 1, lo + 2, lo + 3, lo + 4] ∧ (∀ k < 5, lo + k ∈ L) ∧
      ∀ lo', (∀ k < 5, lo' + k ∈ L) → lo ≤ lo' := by
  intro L
  induction L with
  | nil => intro _ w h; exact absurd h (by simp [firstRun])
  | cons a t ih =>
    intro hp w hsome
    cases t with
    | nil => exact absurd hsome (by simp [firstRun])
    | cons b t2 =>
      cases t2 with
      | nil => exact absurd hsome (by simp [firstRun])
      | cons c t3 =>
        cases t3 with
        | nil => exact absurd hsome (by simp [firstRun])
        | cons d t4 =>
          cases t4 with
          | nil => exact absurd hsome (by simp [firstRun])
          | cons e t5 =>
            rw [firstRun] at hsome
            split at hsome
            · rename_i hcond
              obtain ⟨h1, h2, h3, h4⟩ := hcond
              refine ⟨a, ?_, ?_, ?_⟩
              · cases hsome
                simp only [List.cons.injEq]
                exact ⟨trivial, by omega, by omega, by omega, by omega, trivial⟩
              · intro k hk
                interval_cases k <;> simp <;> omega
              · intro lo' hrun'
                have hm := hrun' 0 (by omega)
                simp only [Nat.add_zero] at hm
                rcases List.mem_cons.1 hm with rfl | hm
                · exact le_refl _
                · exact Nat.le_of_lt ((List.pairwise_cons.1 hp).1 lo' hm)
            · rename_i hcond
              obtain ⟨lo, hw, hmem, hmin⟩ := ih hp.of_cons w hsome
              refine ⟨lo, hw, ?_, ?_⟩
              · intro k hk
                exact List.mem_cons_of_mem a (hmem k hk)
              · intro lo' hrun'
                by_cases hlo : lo' = a
                · subst hlo
                  exact absurd (head_run_consecutive lo' b c d e t5 hp hrun') hcond
                · exact hmin lo' (run_in_tail a _ hp lo' hlo hrun')

/-- Helper: full behaviour of `find_straight` on the descending-sorted
rank list of a duplicate-free flush suit: either no admissible run exists
and the scan misses, or it returns the window of the least admissible run
(the wheel, reported as `[5,4,3,2,1]`, only when no Ace-high-or-normal run
exists). -/
theorem findStraight_sortDesc (R : List Nat) (hnd : R.Nodup) (h5 : 5 ≤ R.length)
    (hval : ∀ x ∈ R, 2 ≤ x ∧ x ≤ 14) :
    (findStraight (sortDesc R) = none ∧ ¬hasAnyRun R) ∨
    (∃ lo, 1 ≤ lo ∧ lo ≤ 10 ∧ hasRun R lo ∧
      (∀ lo', 2 ≤ lo' → lo' < lo → ¬hasRun R lo') ∧
      (lo = 1 → ∀ lo', 2 ≤ lo' → lo' ≤ 10 → ¬hasRun R lo') ∧
      findStraight (sortDesc R) = some [lo + 4, lo + 3, lo + 2, lo + 1, lo]) := by
  have hlenF : (sortDesc R).length = R.length := (List.perm_insertionSort _ R).length_eq
  have hmemF : ∀ x, x ∈ sortDesc R ↔ x ∈ R := fun x => (List.perm_insertionSort _ R).mem_iff
  have hLs : (sortAsc (sortDesc R)).Sorted (· ≤ ·) := List.sorted_insertionSort _ _
  have hLp : (dedupAdj (sortAsc (sortDesc R))).Pairwise (· < ·) := pairwise_dedupAdj _ hLs
  have hLm : ∀ x, x ∈ dedupAdj (sortAsc (sortDesc R)) ↔ x ∈ R := by
    intro x
    rw [mem_dedupAdj, sortAsc, (List.perm_insertionSort _ (sortDesc R)).mem_iff, hmemF]
  have hfs : findStraight (sortDesc R) =
      (match firstRun (dedupAdj (sortAsc (sortDesc R))) with
       | some w => some w.reverse
       | none =>
         if 14 ∈ dedupAdj (sortAsc (sortDesc R)) then
           if (firstRun (dedupAdj (sortAsc ((dedupAdj (sortAsc (sortDesc R))).map
               (fun r => if r = 14 then 1 else r))))).isSome
           then some [5, 4, 3, 2, 1] else none
         else none) := by
    simp only [findStraight]
    rw [if_neg (by omega)]
  have hrun_iff : ∀ lo, 2 ≤ lo →
      (hasRun R lo ↔ ∀ k < 5, lo + k ∈ dedupAdj (sortAsc (sortDesc R))) := by
    intro lo hlo
    constructor
    · intro h k hk
      rcases h k hk with hm | ⟨hm1, _⟩
      · exact (hLm _).2 hm
      · omega
    · intro h k hk
      exact Or.inl ((hLm _).1 (h k hk))
  cases hfr : firstRun (dedupAdj (sortAsc (sortDesc R))) with
  | some w =>
    obtain ⟨lo, hw, hmem, hmin⟩ := firstRun_some _ hLp w hfr
    have hlo2 : 2 ≤ lo := by
      have := (hval lo ((hLm lo).1 (by simpa using hmem 0 (by omega)))).1
      omega
    have hlo10 : lo ≤ 10 := by
      have := (hval (lo + 4) ((hLm _).1 (hmem 4 (by omega)))).2
      omega
    refine Or.inr ⟨lo, by omega, hlo10, (hrun_iff lo hlo2).2 hmem, ?_, by omega, ?_⟩
    · intro lo' hlo' hlt hr
      exact absurd (hmin lo' ((hrun_iff lo' hlo').1 hr)) (by omega)
    · rw [hfs, hfr, hw]
      rfl
  | none =>
    have hnorun : ∀ lo, 2 ≤ lo → ¬hasRun R lo := by
      intro lo hlo hr
      exact firstRun_none _ hLp hfr lo ((hrun_iff lo hlo).1 hr)
    by_cases h14 : 14 ∈ dedupAdj (sortAsc (sortDesc R))
    · have hAs : (sortAsc ((dedupAdj (sortAsc (sortDesc R))).map
          (fun r => if r = 14 then 1 else r))).Sorted (· ≤ ·) := List.sorted_insertionSort _ _
      have hAp : (dedupAdj (sortAsc ((dedupAdj (sortAsc (sortDesc R))).map
          (fun r => if r = 14 then 1 else r)))).Pairwise (· < ·) := pairwise_dedupAdj _ hAs
      have hAm : ∀ x, x ∈ dedupAdj (sortAsc ((dedupAdj (sortAsc (sortDesc R))).map
          (fun r => if r = 14 then 1 else r))) ↔ ((x ∈ R ∧ x ≠ 14) ∨ (x = 1 ∧ 14 ∈ R)) := by
        intro x
        rw [mem_dedupAdj, sortAsc, (List.perm_insertionSort _ _).mem_iff, List.mem_map]
        constructor
        · rintro ⟨y, hy, hrepl⟩
          rw [hLm] at hy
          by_cases hy14 : y = 14
          · subst hy14
            simp only [if_pos rfl] at hrepl
            exact Or.inr ⟨hrepl.symm, hy⟩
          · rw [if_neg hy14] at hrepl
            subst hrepl
            exact Or.inl ⟨hy, hy14⟩
        · rintro (⟨hx, hx14⟩ | ⟨hx1, hx14⟩)
          · exact ⟨x, (hLm x).2 hx, by rw [if_neg hx14]⟩
          · exact ⟨14, (hLm 14).2 hx14, by rw [if_pos rfl, hx1]⟩
      have hwheel_iff : hasRun R 1 ↔ (∀ k < 5, 1 + k ∈ dedupAdj (sortAsc
          ((dedupAdj (sortAsc (sortDesc R))).map (fun r => if r = 14 then 1 else r)))) := by
        constructor
        · intro h k hk
          rcases h k hk with hm | ⟨hm1, hm14⟩
          · refine (hAm _).2 (Or.inl ⟨hm, ?_⟩)
            have := (hval _ hm).2
            omega
          · rw [hAm]
            exact Or.inr ⟨hm1, hm14⟩
        · intro h k hk
          rcases (hAm _).1 (h k hk) with ⟨hm, _⟩ | ⟨hm1, hm14⟩
          · exact Or.inl hm
          · exact Or.inr ⟨hm1, hm14⟩
      cases hfa : firstRun (dedupAdj (sortAsc ((dedupAdj (sortAsc (sortDesc R))).map
          (fun r => if r = 14 then 1 else r)))) with
      | some w2 =>
        obtain ⟨lo2, hw2, hmem2, _⟩ := firstRun_some _ hAp w2 hfa
        have hlo2_1 : lo2 = 1 := by
          rcases (hAm lo2).1 (by simpa using hmem2 0 (by omega)) with ⟨hm, _⟩ | ⟨hm1, _⟩
          · exfalso
            have hlo2ge : 2 ≤ lo2 := (hval lo2 hm).1
            refine firstRun_none _ hLp hfr lo2 ?_
            intro k hk
            rcases (hAm _).1 (hmem2 k hk) with ⟨hmk, _⟩ | ⟨hmk1, _⟩
            · exact (hLm _).2 hmk
            · omega
          · exact hm1
        subst hlo2_1
        refine Or.inr ⟨1, le_refl _, by omega, hwheel_iff.2 hmem2, by omega, ?_, ?_⟩
        · intro _ lo' hlo' _ hr
          exact hnorun lo' hlo' hr
        · rw [hfs, hfr, if_pos h14, hfa]
          rfl
      | none =>
        refine Or.inl ⟨by rw [hfs, hfr, if_pos h14, hfa]; rfl, ?_⟩
        rintro ⟨lo, hlo1, hlo10, hr⟩
        by_cases hlo2 : 2 ≤ lo
        · exact hnorun lo hlo2 hr
        · have hlo_1 : lo = 1 := by omega
          subst hlo_1
          exact firstRun_none _ hAp hfa 1 (hwheel_iff.1 hr)
    · refine Or.inl ⟨by rw [hfs, hfr, if_neg h14], ?_⟩
      rintro ⟨lo, hlo1, hlo10, hr⟩
      by_cases hlo2 : 2 ≤ lo
      · exact hnorun lo hlo2 hr
      · have hlo_1 : lo = 1 := by omega
        subst hlo_1
        rcases hr 0 (by omega) with hm | ⟨_, hm14⟩
        · have := (hval 1 (by simpa using hm)).1
          omega
        · exact h14 ((hLm 14).2 hm14)

/-- Helper: on at most 7 duplicate-free cards of which 5 share a suit, the
four-of-a-kind and full-house branches of `evaluate` cannot fire, so
control reaches the flush branch. -/
theorem evaluate_reaches_flushPart (rord : List Nat) (sord : List Suit)
    (hole community : List Card) (su : Suit)
    (hnd : (hole ++ community).Nodup)
    (h5 : 5 ≤ (hole ++ community).length)
    (h7 : (hole ++ community).length ≤ 7)
    (hsu : 5 ≤ (hole ++ community).countP (fun c => c.suit == su)) :
    evaluateWith rord sord hole community =
      evalFlushPart rord sord (hole ++ community)
        (sortDesc ((hole ++ community).map Card.rank))
        (dedupAdj (sortDesc ((hole ++ community).map Card.rank))) := by
  have hcnt : ∀ r, (sortDesc ((hole ++ community).map Card.rank)).count r =
      ((hole ++ community).map Card.rank).count r :=
    fun r => (List.perm_insertionSort _ _).count_eq r
  have hle3 : ∀ r, ((hole ++ community).map Card.rank).count r ≤ 3 :=
    fun r => rank_count_le_three (hole ++ community) hnd h7 su hsu r
  simp only [evaluateWith]
  rw [if_neg (by omega)]
  have h4 : rord.find? (fun r =>
      (sortDesc ((hole ++ community).map Card.rank)).count r == 4) = none := by
    rw [List.find?_eq_none]
    intro r _
    simp only [beq_iff_eq, hcnt]
    have := hle3 r
    omega
  rw [h4]
  by_cases hlen : 2 ≤ (rord.filter (fun r =>
      2 ≤ (sortDesc ((hole ++ community).map Card.rank)).count r)).length
  · rw [if_pos hlen]
    cases hth : (rord.filter (fun r =>
        2 ≤ (sortDesc ((hole ++ community).map Card.rank)).count r)).find?
        (fun r => 3 ≤ (sortDesc ((hole ++ community).map Card.rank)).count r) with
    | none => simp only [hth]
    | some three =>
      have h3 : 3 ≤ ((hole ++ community).map Card.rank).count three := by
        have := List.find?_some hth
        simp only [decide_eq_true_eq, hcnt] at this
        exact this
      have hpair : (rord.filter (fun r =>
          2 ≤ (sortDesc ((hole ++ community).map Card.rank)).count r)).find?
          (fun r => r ≠ three ∧ 2 ≤ (sortDesc ((hole ++ community).map Card.rank)).count r) =
          none := by
        rw [List.find?_eq_none]
        intro r _
        simp only [decide_eq_true_eq, hcnt, not_and, ne_eq]
        intro hne
        exact fun h2 =>
          no_full_house_pattern (hole ++ community) hnd h7 su hsu three r
            (fun hEq => hne hEq.symm) h3 h2
      simp only [hth, hpair]
  · rw [if_neg hlen]

/-- Helper: once the (necessarily unique) flush suit is found, the flush
part of `evaluate` is the straight-scan dispatch over the suit's
descending ranks. -/
theorem evalFlushPart_reduce (rord : List Nat) (sord : List Suit)
    (hole community : List Card) (su : Suit) (ranks ranks_dedup : List Nat)
    (h7 : (hole ++ community).length ≤ 7)
    (hsuC : 5 ≤ (hole ++ community).countP (fun c => c.suit == su))
    (hs : validSuitOrd sord (hole ++ community)) :
    evalFlushPart rord sord (hole ++ community) ranks ranks_dedup =
      (match findStraight (sortDesc (suitRanks (hole ++ community) su)) with
       | some straight_ranks =>
         if straight_ranks.getD 0 0 = 14 ∧ straight_ranks.getD 1 0 = 13 then
           ⟨.RoyalFlush, [14], []⟩
         else ⟨.StraightFlush, straight_ranks, []⟩
       | none => ⟨.Flush, (sortDesc (suitRanks (hole ++ community) su)).take 5, []⟩) := by
  have husu : sord.find? (fun su2 =>
      5 ≤ ((hole ++ community).filter (fun c => c.suit == su2)).length) = some su := by
    apply find?_eq_some_of_unique
    · have hpos : 0 < (hole ++ community).countP (fun c => c.suit == su) := by omega
      obtain ⟨c, hc, hcp⟩ := List.countP_pos_iff.1 hpos
      simp only [beq_iff_eq] at hcp
      exact (hs.2).2 _ (List.mem_map.2 ⟨c, hc, hcp⟩)
    · simp only [decide_eq_true_eq, ← List.countP_eq_length_filter]
      exact hsuC
    · intro y _ hpy
      by_contra hne
      simp only [decide_eq_true_eq, ← List.countP_eq_length_filter] at hpy
      have hd := countP_disjoint_le (hole ++ community)
        (fun c => c.suit == su) (fun c => c.suit == y)
        (by
          intro a ha
          rcases ha with ⟨ha1, ha2⟩
          simp only [beq_iff_eq] at ha1 ha2
          exact hne (ha2.symm.trans ha1))
      omega
  simp only [evalFlushPart, husu, suitRanks]

/-- C5 amended: for at most seven pairwise-distinct valid cards, at least
five of them, among which some suit has five or more cards, `evaluate`
returns a flush-category hand of that suit.  It is a straight or royal
flush precisely when five consecutive ranks (Ace high or low) are
available in the suit — not merely when the suit's five highest ranks are
consecutive; the reported run is the lowest available (the Ace-low wheel
only when no other run exists), a royal flush exactly when that lowest run
is 10..14; otherwise it is a plain flush whose `primary_values` are the
suit's five highest ranks in descending order. -/
theorem flush_category_characterisation (rord : List Nat) (sord : List Suit)
    (hole community : List Card) (su : Suit)
    (hval : ∀ c ∈ hole ++ community, 2 ≤ c.rank ∧ c.rank ≤ 14)
    (hnd : (hole ++ community).Nodup)
    (h5 : 5 ≤ (hole ++ community).length)
    (h7 : (hole ++ community).length ≤ 7)
    (hsu : 5 ≤ (suitRanks (hole ++ community) su).length)
    (hs : validSuitOrd sord (hole ++ community)) :
    ((evaluateWith rord sord hole community).rank = .Flush ∨
     (evaluateWith rord sord hole community).rank = .StraightFlush ∨
     (evaluateWith rord sord hole community).rank = .RoyalFlush) ∧
    (((evaluateWith rord sord hole community).rank = .StraightFlush ∨
      (evaluateWith rord sord hole community).rank = .RoyalFlush) ↔
        hasAnyRun (suitRanks (hole ++ community) su)) ∧
    ((evaluateWith rord sord hole community).rank = .RoyalFlush ↔
      (hasRun (suitRanks (hole ++ community) su) 10 ∧
       ∀ lo, 2 ≤ lo → lo < 10 → ¬hasRun (suitRanks (hole ++ community) su) lo)) ∧
    ((evaluateWith rord sord hole community).rank = .Flush →
      (evaluateWith rord sord hole community).primary_values =
        (sortDesc (suitRanks (hole ++ community) su)).take 5) ∧
    ((evaluateWith rord sord hole community).rank = .StraightFlush →
      ∃ lo, 1 ≤ lo ∧ lo ≤ 10 ∧ hasRun (suitRanks (hole ++ community) su) lo ∧
        (∀ lo', 2 ≤ lo' → lo' < lo → ¬hasRun (suitRanks (hole ++ community) su) lo') ∧
        (lo = 1 → ∀ lo', 2 ≤ lo' → lo' ≤ 10 →
          ¬hasRun (suitRanks (hole ++ community) su) lo') ∧
        (evaluateWith rord sord hole community).primary_values =
          [lo + 4, lo + 3, lo + 2, lo + 1, lo]) := by
  have hsuC : 5 ≤ (hole ++ community).countP (fun c => c.suit == su) := by
    have hlen : (suitRanks (hole ++ community) su).length =
        (hole ++ community).countP (fun c => c.suit == su) := by
      simp [suitRanks, ← List.countP_eq_length_filter]
    omega
  have hndR : (suitRanks (hole ++ community) su).Nodup := by
    refine ((hnd.filter _).map_on ?_)
    intro x hx y hy hxy
    have hxs : x.suit = su := by simpa using (List.mem_filter.1 hx).2
    have hys : y.suit = su := by simpa using (List.mem_filter.1 hy).2
    cases x; cases y
    simp_all
  have hvalR : ∀ x ∈ suitRanks (hole ++ community) su, 2 ≤ x ∧ x ≤ 14 := by
    intro x hx
    obtain ⟨c, hc, rfl⟩ := List.mem_map.1 hx
    exact hval c (List.mem_of_mem_filter hc)
  have hred := (evaluate_reaches_flushPart rord sord hole community su hnd h5 h7 hsuC).trans
    (evalFlushPart_reduce rord sord hole community su _ _ h7 hsuC hs)
  rcases findStraight_sortDesc (suitRanks (hole ++ community) su) hndR hsu hvalR with
    ⟨hfs, hnr⟩ | ⟨lo, hlo1, hlo10, hrun, hmin, hwm, hfs⟩
  · rw [hfs] at hred
    rw [hred]
    refine ⟨Or.inl rfl, iff_of_false (by simp) hnr, iff_of_false (by simp) ?_, fun _ => rfl,
      fun h => absurd h (by simp)⟩
    rintro ⟨h10, _⟩
    exact hnr ⟨10, by omega, by omega, h10⟩
  · rw [hfs] at hred
    have hred2 : evaluateWith rord sord hole community =
        (if ([lo + 4, lo + 3, lo + 2, lo + 1, lo] : List Nat).getD 0 0 = 14 ∧
            ([lo + 4, lo + 3, lo + 2, lo + 1, lo] : List Nat).getD 1 0 = 13 then
          (⟨HandRank.RoyalFlush, [14], []⟩ : EvaluatedHand)
        else ⟨HandRank.StraightFlush, [lo + 4, lo + 3, lo + 2, lo + 1, lo], []⟩) := hred
    by_cases hl10 : lo = 10
    · subst hl10
      have hc : (([10 + 4, 10 + 3, 10 + 2, 10 + 1, 10] : List Nat).getD 0 0 = 14 ∧
          ([10 + 4, 10 + 3, 10 + 2, 10 + 1, 10] : List Nat).getD 1 0 = 13) := ⟨rfl, rfl⟩
      rw [if_pos hc] at hred2
      rw [hred2]
      refine ⟨Or.inr (Or.inr rfl), iff_of_true (Or.inr rfl) ⟨10, by omega, by omega, hrun⟩,
        iff_of_true rfl ⟨hrun, hmin⟩, fun h => absurd h (by simp), fun h => absurd h (by simp)⟩
    · have hcond : ¬(([lo + 4, lo + 3, lo + 2, lo + 1, lo] : List Nat).getD 0 0 = 14 ∧
          ([lo + 4, lo + 3, lo + 2, lo + 1, lo] : List Nat).getD 1 0 = 13) := by
        rintro ⟨hc1, _⟩
        simp only [List.getD_cons_zero] at hc1
        omega
      rw [if_neg hcond] at hred2
      rw [hred2]
      refine ⟨Or.inr (Or.inl rfl), iff_of_true (Or.inl rfl) ⟨lo, hlo1, hlo10, hrun⟩,
        iff_of_false (by simp) ?_, fun h => absurd h (by simp),
        fun _ => ⟨lo, hlo1, hlo10, hrun, hmin, hwm, rfl⟩⟩
      rintro ⟨h10, hminR⟩
      by_cases hlo2 : 2 ≤ lo
      · exact hminR lo hlo2 (by omega) hrun
      · exact hwm (by omega) 10 (by omega) (by omega) h10

/-- C5 witness: the amended theorem applied to a concrete seven-card hand
with hearts 2,3,4,7,9 — a plain heart flush. -/
theorem flush_category_witness :
    (c5wHole ++ c5wComm).Nodup ∧
    (((evaluateWith [2, 3, 4, 7, 9, 13, 12] [Suit.Hearts, Suit.Spades, Suit.Diamonds]
        c5wHole c5wComm).rank = .Flush ∨
      (evaluateWith [2, 3, 4, 7, 9, 13, 12] [Suit.Hearts, Suit.Spades, Suit.Diamonds]
        c5wHole c5wComm).rank = .StraightFlush ∨
      (evaluateWith [2, 3, 4, 7, 9, 13, 12] [Suit.Hearts, Suit.Spades, Suit.Diamonds]
        c5wHole c5wComm).rank = .RoyalFlush) ∧
    (((evaluateWith [2, 3, 4, 7, 9, 13, 12] [Suit.Hearts, Suit.Spades, Suit.Diamonds]
        c5wHole c5wComm).rank = .StraightFlush ∨
      (evaluateWith [2, 3, 4, 7, 9, 13, 12] [Suit.Hearts, Suit.Spades, Suit.Diamonds]
        c5wHole c5wComm).rank = .RoyalFlush) ↔
        hasAnyRun (suitRanks (c5wHole ++ c5wComm) Suit.Hearts)) ∧
    ((evaluateWith [2, 3, 4, 7, 9, 13, 12] [Suit.Hearts, Suit.Spades, Suit.Diamonds]
        c5wHole c5wComm).rank = .RoyalFlush ↔
      (hasRun (suitRanks (c5wHole ++ c5wComm) Suit.Hearts) 10 ∧
       ∀ lo, 2 ≤ lo → lo < 10 → ¬hasRun (suitRanks (c5wHole ++ c5wComm) Suit.Hearts) lo)) ∧
    ((evaluateWith [2, 3, 4, 7, 9, 13, 12] [Suit.Hearts, Suit.Spades, Suit.Diamonds]
        c5wHole c5wComm).rank = .Flush →
      (evaluateWith [2, 3, 4, 7, 9, 13, 12] [Suit.Hearts, Suit.Spades, Suit.Diamonds]
        c5wHole c5wComm).primary_values =
        (sortDesc (suitRanks (c5wHole ++ c5wComm) Suit.Hearts)).take 5) ∧
    ((evaluateWith [2, 3, 4, 7, 9, 13, 12] [Suit.Hearts, Suit.Spades, Suit.Diamonds]
        c5wHole c5wComm).rank = .StraightFlush →
      ∃ lo, 1 ≤ lo ∧ lo ≤ 10 ∧ hasRun (suitRanks (c5wHole ++ c5wComm) Suit.Hearts) lo ∧
        (∀ lo', 2 ≤ lo' → lo' < lo →
          ¬hasRun (suitRanks (c5wHole ++ c5wComm) Suit.Hearts) lo') ∧
        (lo = 1 → ∀ lo', 2 ≤ lo' → lo' ≤ 10 →
          ¬hasRun (suitRanks (c5wHole ++ c5wComm) Suit.Hearts) lo') ∧
        (evaluateWith [2, 3, 4, 7, 9, 13, 12] [Suit.Hearts, Suit.Spades, Suit.Diamonds]
          c5wHole c5wComm).primary_values = [lo + 4, lo + 3, lo + 2, lo + 1, lo])) :=
  ⟨by decide,
   flush_category_characterisation [2, 3, 4, 7, 9, 13, 12]
     [Suit.Hearts, Suit.Spades, Suit.Diamonds] c5wHole c5wComm Suit.Hearts
     (by decide) (by decide) (by decide) (by decide) (by decide) (by decide)⟩

end Poker

